import Mathlib

/-!
Verification of the `restage` stage-archive packer/unpacker (`restage.py`).

The development shallowly embeds the script's core: the filename checksum
(`strcode`), the per-stage entry-record construction and serialization
(`pack_stage`), the container layout (`pack_dir`), the stage parser and
extractor (`unpack_stage`), and the config reader/writer.  Bytes are `Nat`s
taken mod 256 at the points where the source packs fixed-width fields; files
are `List Nat`.  All definitions are executable.
-/

namespace Restage

set_option maxRecDepth 8000

/-- Zero bytes, as produced by `BufWriter.align` padding and by writes past the
end of the file. -/
def zeros (n : Nat) : List Nat := List.replicate n 0

/-- The alignment computation `((cur + (n - 1)) // n) * n` shared by
`BufReader.align` and `BufWriter.align`. -/
def alignUp (n cur : Nat) : Nat := ((cur + (n - 1)) / n) * n

/-- Little-endian bytes of a 16-bit field, `struct.pack("<H", v)`; also used
for the `"<h"` sub-header fields, whose values are small and non-negative in
the modeled domain (Python's `struct` raises on out-of-range values, so inputs
are taken mod 2^16 here). -/
def u16le (v : Nat) : List Nat := [v % 256, v / 256 % 256]

/-- Little-endian bytes of a 32-bit field, `struct.pack("<I", v)`. -/
def u32le (v : Nat) : List Nat := [v % 256, v / 256 % 256, v / 65536 % 256, v / 16777216 % 256]

/-- One step of the rolling checksum loop body of `strcode`:
`code = (code >> 11) | (code << 5); code &= 0xffff; code += s; code &= 0xffff`. -/
def strcodeStep (code s : Nat) : Nat :=
  ((((code >>> 11) ||| (code <<< 5)) &&& 0xffff) + s) &&& 0xffff

/-- `strcode` over an already-encoded byte sequence (the loop of the source's
`strcode` runs over `string.encode("EUC-JP")`). -/
def strcodeBytes (bs : List Nat) : Nat := bs.foldl strcodeStep 0

/-- Modelled from the spec: the EUC-JP byte encoding used by `strcode` is
library code external to the repository; on ASCII strings (the names appearing
in stage configs) EUC-JP encodes each character as its own code point, so the
encoding is the byte map of the characters. -/
def eucJP (s : String) : List Nat := s.data.map Char.toNat

/-- `strcode(string)`: the 16-bit rolling checksum of a filename. -/
def strcode (s : String) : Nat := strcodeBytes (eucJP s)

/-- One step of the checksum as the specification words it:
`acc = ((acc >> 11) | (acc << 5)) & 0xFFFF; acc = (acc + b) & 0xFFFF`, with the
maskings read as reduction mod 2^16. -/
def checksumSpecStep (acc b : Nat) : Nat :=
  (((acc >>> 11) ||| (acc <<< 5)) % 65536 + b) % 65536

/-- The specification's reference fold for the name checksum. -/
def checksumSpec (bs : List Nat) : Nat := bs.foldl checksumSpecStep 0

/-- One asset of a stage directory, as listed in `data.cnf`: base name,
extension, classified section character, and file content.  The source reads
the size at config time and the bytes at payload time; both come from the same
file, modeled as `content`. -/
structure StFile where
  name : String
  ext : String
  sect : Char
  content : List Nat
deriving DecidableEq

/-- `os.path.getsize` of the asset. -/
def StFile.size (f : StFile) : Nat := f.content.length

/-- `ord(ext[0])`: the byte of the first character of the extension (the
source indexes `ext[0]`; an empty extension is a caller error, modeled as 0). -/
def extTag (f : StFile) : Nat :=
  match f.ext.data with
  | [] => 0
  | c :: _ => c.toNat

/-- One 8-byte entry record of a stage header:
`(u16 name_code, u8 section_tag, u8 ext_tag, u32 value)`. -/
structure Record where
  name : Nat
  mode : Nat
  ext : Nat
  value : Nat
deriving DecidableEq

/-- Whether the next entry (if any) is classified in the cache section -- the
`files[i + 1][2] != 'c'` lookahead of the record loop. -/
def nextIsC : List StFile → Bool
  | [] => false
  | g :: _ => g.sect == 'c'

/-- The sequence of 8-byte records emitted by the first loop of `pack_stage`
(lines 111-144): per entry a record whose name code is 0 for extension `dar`
and `strcode(name)` otherwise, whose section tag is `ord('s')` for extension
`bin` and `ord(section)` otherwise, and whose value is the running cache
offset inside a cache run and the file size outside one; when a cache run
ends, one trailer record `(0, ord('c'), 0xff, cache_size)` follows. -/
def packRecordsAux (inC : Bool) (cs : Nat) : List StFile → List Record
  | [] => []
  | f :: rest =>
    let inC2 := inC || (f.sect == 'c')
    let r : Record :=
      { name := if f.ext = "dar" then 0 else strcode f.name
        mode := if f.ext = "bin" then 115 else f.sect.toNat
        ext := extTag f
        value := if inC2 then cs else f.size }
    let cs2 := if inC2 then cs + f.size else cs
    if inC2 && !(nextIsC rest) then
      r :: { name := 0, mode := 99, ext := 255, value := cs2 } :: packRecordsAux false cs2 rest
    else
      r :: packRecordsAux inC2 cs2 rest

/-- The records of a whole stage: the loop starts with `in_cache = False` and
`cache_size = 0`. -/
def packRecords (files : List StFile) : List Record := packRecordsAux false 0 files

/-- Python `str.strip` on the ASCII config lines: drop whitespace from both
ends. -/
def pyStrip (s : String) : String :=
  String.mk (((s.data.dropWhile Char.isWhitespace).reverse.dropWhile Char.isWhitespace).reverse)

/-- Python `line.split('.')` on the characters of a config line. -/
def splitDots : List Char → List (List Char)
  | [] => [[]]
  | c :: rest =>
    if c = '.' then [] :: splitDots rest
    else
      match splitDots rest with
      | [] => [[c]]
      | p :: ps => (c :: p) :: ps

/-- The config-reading loop of `pack_stage` (lines 73-101): a state machine
over directive lines with Python's `assert`s modeled as `none`, collecting
`(name, ext, section, size)` per asset line; `g` is `os.path.getsize` keyed by
the full `name.ext` line (a missing file is fatal, hence `none`). -/
def readConfigAux (g : String → Option Nat) (sect : Option Char) :
    List String → Option (List (String × String × Char × Nat))
  | [] => some []
  | line0 :: rest =>
    let line := pyStrip line0
    if line = ".resident" then
      if sect = none then readConfigAux g (some 'r') rest else none
    else if line = ".nocache" then
      if sect = none ∨ sect = some 'r' then readConfigAux g (some 'n') rest else none
    else if line = ".cache" then
      if sect = some 'r' ∨ sect = some 'n' then readConfigAux g (some 'c') rest else none
    else if line = ".sound" then
      if sect = some 'c' then readConfigAux g (some 's') rest else none
    else
      match sect with
      | none => none
      | some c =>
        match splitDots line.data with
        | [nm, ex] =>
          match g line with
          | some sz => (readConfigAux g (some c) rest).map
              (fun fs => (String.mk nm, String.mk ex, c, sz) :: fs)
          | none => none
        | _ => none

/-- Reading a whole `data.cnf`: the state starts as `section = None`. -/
def readConfig (g : String → Option Nat) (lines : List String) :
    Option (List (String × String × Char × Nat)) := readConfigAux g none lines

/-- Rank of a directive in the fixed order Resident, NoCache, Cache, Sound. -/
def dirRank (s : String) : Option Nat :=
  if s = ".resident" then some 0
  else if s = ".nocache" then some 1
  else if s = ".cache" then some 2
  else if s = ".sound" then some 3
  else none

/-- The directives of a config, in order, as ranks. -/
def configDirs (lines : List String) : List Nat :=
  lines.filterMap (fun l => dirRank (pyStrip l))

/-- Whether `sub` is a prefix of `l` (for the substring test below). -/
def listPre : List Char → List Char → Bool
  | [], _ => true
  | _ :: _, [] => false
  | a :: as, b :: bs => a == b && listPre as bs

/-- Auxiliary scan for the substring test. -/
def hasSubstrAux (sub : List Char) : List Char → Bool
  | [] => sub.isEmpty
  | c :: rest => listPre sub (c :: rest) || hasSubstrAux sub rest

/-- Python's `sub in name` substring containment on strings. -/
def hasSubstr (name sub : String) : Bool := hasSubstrAux sub.data name.data

/-- The `.bin` forcing of `write_stage_config` (lines 237-238): a file whose
name contains `.bin` is regenerated under the NoCache directive regardless of
its stored tag. -/
def cfgMode (name : String) (mode : Char) : Char :=
  if hasSubstr name ".bin" then 'n' else mode

/-- The directive line written for a section character (the if/elif chain of
`write_stage_config`; everything not `c`, `n` or `r` falls to `.sound`). -/
def dirLine (m : Char) : String :=
  if m = 'c' then ".cache"
  else if m = 'n' then ".nocache"
  else if m = 'r' then ".resident"
  else ".sound"

/-- The loop of `write_stage_config`: assert the mode is one of `cnrs`, skip
the synthetic `cache_end` entries, force `.bin` names to NoCache, emit a
directive line whenever the (forced) mode changes, then the name line. -/
def write_stage_config_aux (sect : Option Char) :
    List (String × Char × Nat) → Option (List String)
  | [] => some []
  | (name, mode, _) :: rest =>
    if mode = 'c' ∨ mode = 'n' ∨ mode = 'r' ∨ mode = 's' then
      if name = "cache_end" then write_stage_config_aux sect rest
      else
        let m := cfgMode name mode
        if sect = some m then
          (write_stage_config_aux (some m) rest).map (fun ls => name :: ls)
        else
          (write_stage_config_aux (some m) rest).map (fun ls => dirLine m :: name :: ls)
    else none

/-- `write_stage_config`: the regenerated `data.cnf` lines of an unpacked
stage (the initial state is `section = None`). -/
def write_stage_config (files : List (String × Char × Nat)) : Option (List String) :=
  write_stage_config_aux none files

/-- Cumulative offsets: `cumul a [s0, s1, ...] = [a, a + s0, a + s0 + s1, ...]`
(one more element than sizes; the last is the total). -/
def cumul (a : Nat) : List Nat → List Nat
  | [] => [a]
  | s :: rest => a :: cumul (a + s) rest

/-- The `BufWriter` over a seekable file: the bytes written so far and the
current position.  Seeking past the end and writing fills the gap with zero
bytes, as the OS does for the underlying file. -/
structure BufWriter where
  data : List Nat
  pos : Nat
deriving DecidableEq

namespace BufWriter

/-- `BufWriter.write`: overwrite `bs` at the current position (zero-filling
any gap between the end of the data and the position) and advance. -/
def write (b : BufWriter) (bs : List Nat) : BufWriter :=
  let padded := b.data ++ zeros (b.pos - b.data.length)
  ⟨padded.take b.pos ++ bs ++ padded.drop (b.pos + bs.length), b.pos + bs.length⟩

/-- `BufWriter.align(n)`: pad with zero bytes up to the next multiple of `n`. -/
def align (b : BufWriter) (n : Nat) : BufWriter :=
  b.write (zeros (alignUp n b.pos - b.pos))

/-- `BufWriter.seek`. -/
def seek (b : BufWriter) (off : Nat) : BufWriter := ⟨b.data, off⟩

/-- `BufWriter.cur`. -/
def cur (b : BufWriter) : Nat := b.pos

end BufWriter

/-- Serialization of one entry record, as emitted field by field by the record
loop: `pack("<H", name); pack("<B", mode); pack("<B", ext); pack("<I", value)`. -/
def recordBytes (r : Record) : List Nat :=
  u16le r.name ++ [r.mode % 256, r.ext % 256] ++ u32le r.value

/-- The bytes of all records of a stage, in emission order. -/
def recordsBytes (rs : List Record) : List Nat := rs.flatMap recordBytes

/-- The payload loop of `pack_stage` (lines 148-157): write each file's
content; align to 2048 after it unless it sits mid cache run (section `c` with
a next entry also `c`). -/
def writePayload : List StFile → BufWriter → BufWriter
  | [], buf => buf
  | f :: rest, buf =>
    let buf := buf.write f.content
    let buf :=
      if f.sect ≠ 'c' then buf.align 2048
      else if nextIsC rest then buf
      else buf.align 2048
    writePayload rest buf

/-- `pack_stage` (lines 66-176), taking the already-parsed file list: reserve
4 bytes for the sub-header, emit the 8-byte records, align to 2048, emit the
payload, then back-patch the sub-header `(header // 2048, (total - start) //
2048)` with `header = ceil((4 + 8 * len(files)) / 2048) * 2048`, and seek back
to the end.  Returns the buffer, the byte length `total - start`, and whether
the more-than-255-entries size warning fired. -/
def pack_stage (files : List StFile) (buf : BufWriter) : BufWriter × Nat × Bool :=
  let start := buf.cur
  let buf := buf.seek (start + 4)
  let buf := buf.write (recordsBytes (packRecords files))
  let buf := buf.align 2048
  let buf := writePayload files buf
  let header := 4 + files.length * 8
  let header := ((header + 2047) / 2048) * 2048
  let total := buf.cur
  let warn := decide (files.length > 255)
  let buf := buf.seek start
  let buf := buf.write (u16le (header / 2048))
  let buf := buf.write (u16le ((total - start) / 2048))
  let buf := buf.seek total
  (buf, total - start, warn)

/-- One stage of the container input: its (ASCII, at most 8 character) name
and its file list. -/
structure Stage where
  name : String
  files : List StFile
deriving DecidableEq

/-- `struct.pack("8s", name.encode('ascii'))`: the name's bytes truncated or
zero-padded to exactly 8. -/
def fixedStr8 (s : String) : List Nat :=
  ((s.data.map Char.toNat).take 8) ++ zeros (8 - s.length)

/-- The per-stage loop of `pack_dir` (lines 193-197): pack each stage, align
to 2048 after it, and record its name/size pair and (for the development) the
position its bytes started at. -/
def packStagesLoop : List Stage → BufWriter → BufWriter × List (String × Nat) × List Nat
  | [], buf => (buf, [], [])
  | st :: rest, buf =>
    let start := buf.cur
    let res := pack_stage st.files buf
    let buf := res.1.align 2048
    let rec2 := packStagesLoop rest buf
    (rec2.1, (st.name, res.2.1) :: rec2.2.1, start :: rec2.2.2)

/-- The table-writing loop of `pack_dir` (lines 201-209): per stage an 8-byte
fixed name and the 4-byte sector offset, starting at `off = 1` and advancing
by `ceil(size / 2048)` sectors.  Also returns the offsets written. -/
def writeTable : List (String × Nat) → Nat → BufWriter → BufWriter × List Nat
  | [], _, buf => (buf, [])
  | (name, size) :: rest, off, buf =>
    let buf := buf.write (fixedStr8 name)
    let buf := buf.write (u32le off)
    let rec2 := writeTable rest (off + (size + 2047) / 2048) buf
    (rec2.1, off :: rec2.2)

/-- The result of packing a container: the file bytes, the per-stage
name/size pairs, the byte positions each stage's bytes started at, and the
sector offsets written into the stage table. -/
structure PackResult where
  data : List Nat
  sizes : List (String × Nat)
  starts : List Nat
  offs : List Nat
deriving DecidableEq

/-- `pack_dir` (lines 178-211), taking the already-read stage list: write the
4-byte table size `12 * len(stages)`, seek past the sector-aligned table
region, pack every stage (aligning after each), then seek back to offset 4 and
write the stage table. -/
def pack_dir (stages : List Stage) : PackResult :=
  let buf : BufWriter := ⟨[], 0⟩
  let header_size := stages.length * 12
  let buf := buf.write (u32le header_size)
  let buf := buf.seek (((header_size + 2047) / 2048) * 2048)
  let res := packStagesLoop stages buf
  let buf := res.1.seek 4
  let res2 := writeTable res.2.1 1 buf
  { data := res2.1.data, sizes := res.2.1, starts := res.2.2, offs := res2.2 }

/-- The `BufReader`: the container bytes and the read position. -/
structure BufReader where
  data : List Nat
  pos : Nat
deriving DecidableEq

namespace BufReader

/-- `BufReader.read(n)`: the next `n` bytes (fewer if the data ends),
advancing by the number of bytes actually read, as Python file reads do. -/
def read (b : BufReader) (n : Nat) : List Nat × BufReader :=
  let bs := (b.data.drop b.pos).take n
  (bs, ⟨b.data, b.pos + bs.length⟩)

/-- `unpack("<B")`: one byte, fatal (`struct.error`) on a short read. -/
def readU8 (b : BufReader) : Option (Nat × BufReader) :=
  match b.data.drop b.pos with
  | v :: _ => some (v, ⟨b.data, b.pos + 1⟩)
  | [] => none

/-- `unpack("<H")` (and the small non-negative `"<h"` fields): two bytes,
little endian, fatal on a short read. -/
def readU16 (b : BufReader) : Option (Nat × BufReader) :=
  match b.data.drop b.pos with
  | v0 :: v1 :: _ => some (v0 + 256 * v1, ⟨b.data, b.pos + 2⟩)
  | _ => none

/-- `unpack("<I")`: four bytes, little endian, fatal on a short read. -/
def readU32 (b : BufReader) : Option (Nat × BufReader) :=
  match b.data.drop b.pos with
  | v0 :: v1 :: v2 :: v3 :: _ =>
    some (v0 + 256 * v1 + 65536 * v2 + 16777216 * v3, ⟨b.data, b.pos + 4⟩)
  | _ => none

/-- `BufReader.align(n)`: skip up to the next multiple of `n` by reading. -/
def align (b : BufReader) (n : Nat) : BufReader :=
  (b.read (alignUp n b.pos - b.pos)).2

/-- `BufReader.seek`. -/
def seek (b : BufReader) (off : Nat) : BufReader := ⟨b.data, off⟩

end BufReader

/-- One lowercase hex digit, as produced by Python's `x` format. -/
def hexDigit (n : Nat) : Char := if n < 10 then Char.ofNat (48 + n) else Char.ofNat (87 + n)

/-- Python `f"{name:04x}.{ext}"`: the dictionary key of a name code and an
extension-tag character (the code is a u16, so four digits). -/
def hexKey (name : Nat) (ext : Nat) : String :=
  String.mk [hexDigit (name / 4096 % 16), hexDigit (name / 256 % 16),
             hexDigit (name / 16 % 16), hexDigit (name % 16), '.', Char.ofNat ext]

/-- The record-reading loop of `unpack_stage` (lines 279-311): read 8-byte
records until one with section tag 0; assert the tag is one of `cnrs` and the
extension byte is lowercase (modeled on the ASCII range, where Python's
`islower` agrees) or `0xff`; resolve the entry name through the dictionary for
a nonzero name code, through the synthetic model/texture counters for a zero
code with mode `c`/`r` or `n`, and as `cache_end` otherwise; the prefix flips
to `res` once a resident entry is seen.  The source loops reading field by
field, so the recursion is fueled; every iteration consumes 8 bytes, so fuel
past `data.length / 8` is never exhausted on a stream the loop accepts. -/
def parseEntries (table : String → Option String) :
    Nat → Nat → Nat → String → BufReader → Option (List (String × Char × Nat) × BufReader)
  | 0, _, _, _, _ => none
  | fuel + 1, mdl, tex, darName, b =>
    match b.readU16 with
    | none => none
    | some (name, b) =>
      match b.readU8 with
      | none => none
      | some (mode, b) =>
        match b.readU8 with
        | none => none
        | some (ext, b) =>
          match b.readU32 with
          | none => none
          | some (size, b) =>
            if mode = 0 then some ([], b)
            else if mode = 99 ∨ mode = 110 ∨ mode = 114 ∨ mode = 115 then
              if (97 ≤ ext ∧ ext ≤ 122) ∨ ext = 255 then
                let darName := if mode = 114 then "res" else darName
                let resolved : Option (String × Nat × Nat) :=
                  if name ≠ 0 then
                    match table (hexKey name ext) with
                    | some v => some (v, mdl, tex)
                    | none => none
                  else if ext ≠ 255 ∧ (mode = 99 ∨ mode = 114) then
                    some (darName ++ "_mdl" ++ toString mdl ++ ".dar", mdl + 1, tex)
                  else if ext ≠ 255 ∧ mode = 110 then
                    some (darName ++ "_tex" ++ toString tex ++ ".dar", mdl, tex + 1)
                  else
                    some ("cache_end", mdl, tex)
                match resolved with
                | none => none
                | some (nm, mdl2, tex2) =>
                  (parseEntries table fuel mdl2 tex2 darName b).map
                    (fun r => ((nm, Char.ofNat mode, size) :: r.1, r.2))
              else none
            else none

/-- The extraction loop of `unpack_stage` (lines 325-340): skip `cache_end`
entries with an alignment; derive a cache entry's size from the next entry's
stored value (an out-of-range index is fatal); read the bytes (written to
`{stage}/{name}` in the source, collected here), aligning after non-cache
entries. -/
def extractFiles : List (String × Char × Nat) → BufReader →
    Option (List (String × Char × List Nat) × BufReader)
  | [], b => some ([], b)
  | (name, mode, size) :: rest, b =>
    if name = "cache_end" then
      extractFiles rest (b.align 2048)
    else
      let sz : Option Nat :=
        if mode = 'c' then
          match rest with
          | [] => none
          | (_, _, nextsize) :: _ => some (nextsize - size)
        else some size
      match sz with
      | none => none
      | some sz =>
        let rd := b.read sz
        let b := if mode ≠ 'c' then rd.2.align 2048 else rd.2
        (extractFiles rest b).map (fun r => ((name, mode, rd.1) :: r.1, r.2))

/-- The result of unpacking one stage: the parsed entry list, the header
warning flag, the regenerated config lines, the extracted files (name, mode,
content), and the final reader. -/
structure UnpackedStage where
  entries : List (String × Char × Nat)
  warn : Bool
  config : List String
  outs : List (String × Char × List Nat)
  rdr : BufReader
deriving DecidableEq

/-- `unpack_stage` (lines 253-340): read the two sub-header fields, parse the
entry records, seek past `header * 2048`, regenerate the stage config, and
extract every file. -/
def unpack_stage (table : String → Option String) (b : BufReader) : Option UnpackedStage :=
  let start := b.pos
  match b.readU16 with
  | none => none
  | some (header, b) =>
    match b.readU16 with
    | none => none
    | some (_, b) =>
      let warn := decide (header ≠ 1)
      match parseEntries table (b.data.length + 1) 1 1 "stg" b with
      | none => none
      | some (files, b) =>
        let b := b.seek (start + header * 2048)
        match write_stage_config files with
        | none => none
        | some config =>
          match extractFiles files b with
          | none => none
          | some (outs, b) =>
            some ⟨files, warn, config, outs, b⟩

/-! ## Checksum lemmas -/

theorem and_ffff_eq_mod (x : Nat) : x &&& 0xffff = x % 65536 := by
  have h := Nat.and_pow_two_sub_one_eq_mod x 16
  norm_num at h
  exact h

theorem strcodeStep_eq_spec (c s : Nat) : strcodeStep c s = checksumSpecStep c s := by
  unfold strcodeStep checksumSpecStep
  rw [and_ffff_eq_mod, and_ffff_eq_mod]

theorem strcode_foldl_eq_spec (bs : List Nat) (acc : Nat) :
    bs.foldl strcodeStep acc = bs.foldl checksumSpecStep acc := by
  induction bs generalizing acc with
  | nil => rfl
  | cons b rest ih => simp only [List.foldl_cons, strcodeStep_eq_spec, ih]

theorem strcodeStep_lt (c s : Nat) : strcodeStep c s < 65536 := by
  unfold strcodeStep
  have h := Nat.and_le_right (n := (((c >>> 11) ||| (c <<< 5)) &&& 0xffff) + s) (m := 0xffff)
  omega

theorem strcode_foldl_lt (bs : List Nat) (acc : Nat) (h : acc < 65536) :
    bs.foldl strcodeStep acc < 65536 := by
  induction bs generalizing acc with
  | nil => exact h
  | cons b rest ih => exact ih _ (strcodeStep_lt _ _)

/-- C7: the `strcode` checksum equals the specification's reference fold
(`acc = ((acc >> 11) | (acc << 5)) mod 2^16; acc = (acc + b) mod 2^16` from
accumulator 0 over the encoded bytes), always yields a 16-bit value, and as a
pure function is deterministic. -/
theorem c7_strcode_is_reference_fold :
    (∀ bs : List Nat, strcodeBytes bs = checksumSpec bs ∧ strcodeBytes bs < 65536) ∧
    (∀ s : String, strcode s = checksumSpec (eucJP s)) := by
  constructor
  · intro bs
    exact ⟨strcode_foldl_eq_spec bs 0, strcode_foldl_lt bs 0 (by norm_num)⟩
  · intro s
    exact strcode_foldl_eq_spec (eucJP s) 0

/-! ## Record-level lemmas for the `.bin` coupling and cache runs -/

/-- C2 counterexample: for a `.bin` entry classified Resident, the section
tag byte that `pack_stage` emits in its record is 115 (ASCII `s`), not 110
(ASCII `n`) as the claim states. -/
theorem c2_counterexample_bin_tag_is_s :
    (packRecords [⟨"x", "bin", 'r', []⟩]).map Record.mode = [115] ∧ (115 : Nat) ≠ 110 := by
  constructor
  · rfl
  · decide

theorem packRecordsAux_bin_modes (files : List StFile) (inC : Bool) (cs : Nat)
    (h : ∀ f ∈ files, extTag f ≠ 255) :
    ((packRecordsAux inC cs files).filter (fun r => r.ext != 255)).map Record.mode
      = files.map (fun f => if f.ext = "bin" then 115 else f.sect.toNat) := by
  induction files generalizing inC cs with
  | nil => rfl
  | cons f rest ih =>
    have hf : extTag f ≠ 255 := h f (List.mem_cons_self f rest)
    have hr : ∀ g ∈ rest, extTag g ≠ 255 := fun g hg => h g (List.mem_cons_of_mem f hg)
    unfold packRecordsAux
    by_cases hc : (inC || (f.sect == 'c')) && !(nextIsC rest)
    · simp only [hc, if_pos]
      simp only [List.filter_cons, List.map_cons]
      have h1 : (extTag f != 255) = true := by simpa using hf
      simp only [h1, if_pos]
      simp only [show ((255 : Nat) != 255) = false from rfl]
      simp [ih _ _ hr]
    · simp only [hc, if_neg, Bool.not_eq_true]
      simp only [List.filter_cons]
      have h1 : (extTag f != 255) = true := by simpa using hf
      simp [h1, ih _ _ hr]

/-- C2 amended: during pack every entry with extension `bin` gets section tag
byte 115 (ASCII `s`, Sound) in its record regardless of its classified
section, and the unpack side forces names containing `.bin` under the
`.nocache` directive when regenerating the config. -/
theorem c2_bin_coupling (files : List StFile) (inC : Bool) (cs : Nat)
    (h : ∀ f ∈ files, extTag f ≠ 255) :
    ((packRecordsAux inC cs files).filter (fun r => r.ext != 255)).map Record.mode
      = files.map (fun f => if f.ext = "bin" then 115 else f.sect.toNat) ∧
    (∀ nm m, hasSubstr nm ".bin" = true → cfgMode nm m = 'n') := by
  refine ⟨packRecordsAux_bin_modes files inC cs h, ?_⟩
  intro nm m hnm
  unfold cfgMode
  simp [hnm]

theorem c2_bin_coupling_witness :
    ((packRecordsAux false 0 [⟨"a", "bin", 'r', []⟩, ⟨"b", "tex", 'n', [1]⟩]).filter
        (fun r => r.ext != 255)).map Record.mode = [115, 110] ∧
    cfgMode "stg_tex1.bin" 's' = 'n' := by
  have h := c2_bin_coupling [⟨"a", "bin", 'r', []⟩, ⟨"b", "tex", 'n', [1]⟩] false 0 (by decide)
  exact ⟨h.1.trans (by decide), h.2 "stg_tex1.bin" 's' (by decide)⟩

/-- The record a non-cache entry produces. -/
def plainRecord (f : StFile) : Record :=
  { name := if f.ext = "dar" then 0 else strcode f.name
    mode := if f.ext = "bin" then 115 else f.sect.toNat
    ext := extTag f
    value := f.size }

/-- The member records of a cache run starting from accumulated offset `cs`. -/
def runRecords (cs : Nat) : List StFile → List Record
  | [] => []
  | f :: rest =>
    { name := if f.ext = "dar" then 0 else strcode f.name
      mode := if f.ext = "bin" then 115 else f.sect.toNat
      ext := extTag f
      value := cs } :: runRecords (cs + f.size) rest

/-- Total size of a run. -/
def sizeSum (files : List StFile) : Nat := (files.map StFile.size).sum

theorem sizeSum_nil : sizeSum [] = 0 := rfl

theorem sizeSum_cons (f : StFile) (l : List StFile) : sizeSum (f :: l) = f.size + sizeSum l := by
  simp [sizeSum]

theorem packRecordsAux_cons (inC : Bool) (cs : Nat) (f : StFile) (rest : List StFile) :
    packRecordsAux inC cs (f :: rest) =
      if (inC || (f.sect == 'c')) && !(nextIsC rest) then
        { name := if f.ext = "dar" then 0 else strcode f.name
          mode := if f.ext = "bin" then 115 else f.sect.toNat
          ext := extTag f
          value := if (inC || (f.sect == 'c')) then cs else f.size } ::
        { name := 0, mode := 99, ext := 255
          value := if (inC || (f.sect == 'c')) then cs + f.size else cs } ::
          packRecordsAux false (if (inC || (f.sect == 'c')) then cs + f.size else cs) rest
      else
        { name := if f.ext = "dar" then 0 else strcode f.name
          mode := if f.ext = "bin" then 115 else f.sect.toNat
          ext := extTag f
          value := if (inC || (f.sect == 'c')) then cs else f.size } ::
          packRecordsAux (inC || (f.sect == 'c'))
            (if (inC || (f.sect == 'c')) then cs + f.size else cs) rest := rfl

theorem packRecordsAux_cons_plain (inC : Bool) (cs : Nat) (f : StFile) (rest : List StFile)
    (hc : (inC || (f.sect == 'c')) = false) :
    packRecordsAux inC cs (f :: rest) = plainRecord f :: packRecordsAux false cs rest := by
  rw [packRecordsAux_cons, hc]
  simp [plainRecord]

theorem packRecordsAux_cons_run_mid (inC : Bool) (cs : Nat) (f : StFile) (rest : List StFile)
    (hc : (inC || (f.sect == 'c')) = true) (hn : nextIsC rest = true) :
    packRecordsAux inC cs (f :: rest) =
      { name := if f.ext = "dar" then 0 else strcode f.name
        mode := if f.ext = "bin" then 115 else f.sect.toNat
        ext := extTag f, value := cs } :: packRecordsAux true (cs + f.size) rest := by
  rw [packRecordsAux_cons, hc, hn]
  simp

theorem packRecordsAux_cons_run_end (inC : Bool) (cs : Nat) (f : StFile) (rest : List StFile)
    (hc : (inC || (f.sect == 'c')) = true) (hn : nextIsC rest = false) :
    packRecordsAux inC cs (f :: rest) =
      { name := if f.ext = "dar" then 0 else strcode f.name
        mode := if f.ext = "bin" then 115 else f.sect.toNat
        ext := extTag f, value := cs } ::
      { name := 0, mode := 99, ext := 255, value := cs + f.size } ::
        packRecordsAux false (cs + f.size) rest := by
  rw [packRecordsAux_cons, hc, hn]
  simp

theorem packRecordsAux_nonCache (pre rest : List StFile) (cs : Nat)
    (h : ∀ f ∈ pre, f.sect ≠ 'c') :
    packRecordsAux false cs (pre ++ rest) = pre.map plainRecord ++ packRecordsAux false cs rest := by
  induction pre with
  | nil => rfl
  | cons f p ih =>
    have hf : f.sect ≠ 'c' := h f (List.mem_cons_self f p)
    have hb : (f.sect == 'c') = false := by simpa using hf
    have ihr := ih (fun g hg => h g (List.mem_cons_of_mem f hg))
    simp only [List.cons_append, List.map_cons]
    rw [packRecordsAux_cons_plain false cs f (p ++ rest) (by simp [hb]), ihr]

theorem packRecordsAux_run (run rest : List StFile) (b : Bool) (cs : Nat)
    (hne : run ≠ [])
    (h : ∀ f ∈ run, f.sect = 'c')
    (hrest : nextIsC rest = false) :
    packRecordsAux b cs (run ++ rest)
      = runRecords cs run
        ++ { name := 0, mode := 99, ext := 255, value := cs + sizeSum run }
          :: packRecordsAux false (cs + sizeSum run) rest := by
  induction run generalizing b cs with
  | nil => exact absurd rfl hne
  | cons f r ih =>
    have hf : f.sect = 'c' := h f (List.mem_cons_self f r)
    have hb : (f.sect == 'c') = true := by simpa using hf
    cases r with
    | nil =>
      simp only [List.cons_append, List.nil_append]
      rw [packRecordsAux_cons_run_end b cs f rest (by simp [hb]) hrest]
      simp [runRecords, sizeSum_cons, sizeSum_nil]
    | cons f2 r2 =>
      have hf2 : f2.sect = 'c' := h f2 (List.mem_cons_of_mem f (List.mem_cons_self f2 r2))
      have ihr := ih true (cs + f.size) (by simp) (fun g hg => h g (List.mem_cons_of_mem f hg))
      simp only [List.cons_append] at ihr ⊢
      rw [packRecordsAux_cons_run_mid b cs f (f2 :: (r2 ++ rest)) (by simp [hb])
        (by simp [nextIsC, hf2]), ihr]
      simp [runRecords, sizeSum_cons, Nat.add_assoc]

theorem charToNat_inj (a b : Char) (h : a.toNat = b.toNat) : a = b := by
  have hv : a.val = b.val := by
    have h2 : a.val.toNat = b.val.toNat := h
    exact UInt32.eq_of_val_eq (Fin.val_injective h2)
  exact Char.eq_of_val_eq hv

theorem filter_plain_nonCache (pre : List StFile) (h : ∀ f ∈ pre, f.sect ≠ 'c') :
    (pre.map plainRecord).filter (fun r => r.mode == 99) = [] := by
  induction pre with
  | nil => rfl
  | cons f p ih =>
    have hf : f.sect ≠ 'c' := h f (List.mem_cons_self f p)
    have hm : ((plainRecord f).mode == 99) = false := by
      simp only [plainRecord]
      by_cases hbin : f.ext = "bin"
      · simp [hbin]
      · simp only [hbin, if_false]
        simp only [beq_eq_false_iff_ne, ne_eq]
        intro hc
        exact hf (charToNat_inj f.sect 'c' hc)
    simp only [List.map_cons, List.filter_cons, hm]
    exact ih (fun g hg => h g (List.mem_cons_of_mem f hg))

theorem filter_runRecords (run : List StFile) (cs : Nat)
    (h : ∀ f ∈ run, f.sect = 'c' ∧ f.ext ≠ "bin") :
    (runRecords cs run).filter (fun r => r.mode == 99) = runRecords cs run := by
  induction run generalizing cs with
  | nil => rfl
  | cons f p ih =>
    have hf := h f (List.mem_cons_self f p)
    simp only [runRecords, List.filter_cons]
    have hm : ((if f.ext = "bin" then 115 else f.sect.toNat) == 99) = true := by
      simp [hf.2, hf.1]
    simp only [hm, if_true]
    rw [ih _ (fun g hg => h g (List.mem_cons_of_mem f hg))]

theorem runRecords_values (run : List StFile) (cs : Nat) :
    (runRecords cs run).map Record.value ++ [cs + sizeSum run] = cumul cs (run.map StFile.size) := by
  induction run generalizing cs with
  | nil => simp [runRecords, sizeSum_nil, cumul]
  | cons f p ih =>
    simp only [runRecords, List.map_cons, cumul, List.cons_append, sizeSum_cons]
    rw [← Nat.add_assoc, ih (cs + f.size)]

theorem cumul_diff (sizes : List Nat) (a : Nat) :
    List.zipWith (fun x y => y - x) (cumul a sizes) (cumul a sizes).tail = sizes := by
  induction sizes generalizing a with
  | nil => rfl
  | cons s rest ih =>
    have hc : cumul (a + s) rest = (a + s) :: (cumul (a + s) rest).tail := by
      cases rest <;> rfl
    simp only [cumul, List.tail_cons]
    rw [hc]
    simp only [List.zipWith_cons_cons]
    rw [← hc, ih (a + s)]
    simp

/-- C3: for a stage whose cache run sits between non-cache entries, the
cache-tagged records carry the cumulative offsets `cumul 0 sizes` (0 for the
first member, then each member's size added) with the trailer carrying the
run total, and subtracting each stored value from the next recovers the
sizes; concretely, sizes `[10, 20, 30]` encode to values `[0, 10, 30]` with
trailer `60`, and the extraction loop decodes member sizes `[10, 20, 30]`
back by differencing. -/
theorem c3_cache_run_offsets :
    (∀ pre run post : List StFile,
      (∀ f ∈ pre, f.sect ≠ 'c') →
      (∀ f ∈ run, f.sect = 'c' ∧ f.ext ≠ "bin") →
      (∀ f ∈ post, f.sect ≠ 'c') →
      run ≠ [] →
      ((packRecords (pre ++ run ++ post)).filter (fun r => r.mode == 99)).map Record.value
          = cumul 0 (run.map StFile.size) ∧
      List.zipWith (fun x y => y - x)
          (((packRecords (pre ++ run ++ post)).filter (fun r => r.mode == 99)).map Record.value)
          ((((packRecords (pre ++ run ++ post)).filter
              (fun r => r.mode == 99)).map Record.value).tail)
          = run.map StFile.size) ∧
    ((packRecords [⟨"a", "dar", 'c', List.replicate 10 1⟩, ⟨"b", "dar", 'c', List.replicate 20 2⟩,
        ⟨"c", "dar", 'c', List.replicate 30 3⟩]).map Record.value = [0, 10, 30, 60] ∧
      (extractFiles [("a", 'c', 0), ("b", 'c', 10), ("c", 'c', 30), ("cache_end", 'c', 60)]
          ⟨List.replicate 10 1 ++ List.replicate 20 2 ++ List.replicate 30 3, 0⟩).map
          (fun r => r.1.map (fun o => o.2.2))
        = some [List.replicate 10 1, List.replicate 20 2, List.replicate 30 3]) := by
  constructor
  · intro pre run post hpre hrun hpost hne
    have hnpost : nextIsC post = false := by
      cases post with
      | nil => rfl
      | cons g p =>
        have := hpost g (List.mem_cons_self g p)
        simpa [nextIsC] using this
    have hvals : ((packRecords (pre ++ run ++ post)).filter (fun r => r.mode == 99)).map
        Record.value = cumul 0 (run.map StFile.size) := by
      unfold packRecords
      rw [List.append_assoc, packRecordsAux_nonCache pre (run ++ post) 0 hpre]
      rw [packRecordsAux_run run post false 0 hne (fun f hf => (hrun f hf).1) hnpost]
      simp only [Nat.zero_add]
      have hpost2 : packRecordsAux false (sizeSum run) post
          = post.map plainRecord := by
        have h0 := packRecordsAux_nonCache post [] (sizeSum run) hpost
        simpa [packRecordsAux] using h0
      rw [hpost2, List.filter_append, List.filter_append, filter_plain_nonCache pre hpre,
        filter_runRecords run 0 hrun]
      simp only [List.filter_cons, beq_self_eq_true, if_true, List.nil_append]
      rw [filter_plain_nonCache post hpost, List.map_append]
      simp only [List.map_cons, List.map_nil]
      have hrv := runRecords_values run 0
      simpa using hrv
    refine ⟨hvals, ?_⟩
    rw [hvals]
    exact cumul_diff (run.map StFile.size) 0
  · constructor
    · rfl
    · rfl

theorem c3_cache_run_offsets_witness :
    ((packRecords ([] ++ [⟨"m", "dar", 'c', [7, 7]⟩] ++ [])).filter
        (fun r => r.mode == 99)).map Record.value = cumul 0 [2] := by
  exact (c3_cache_run_offsets.1 [] [⟨"m", "dar", 'c', [7, 7]⟩] [] (by decide) (by decide)
    (by decide) (by decide)).1

/-! ## Config directive ordering -/

/-- Rank of a section state character. -/
def stRank (c : Char) : Nat :=
  if c = 'r' then 0 else if c = 'n' then 1 else if c = 'c' then 2 else 3

/-- The directive ranks contributed by the current state. -/
def stDirs : Option Char → List Nat
  | none => []
  | some c => [stRank c]

theorem readConfigAux_chain (g : String → Option Nat) (lines : List String) :
    ∀ (sect : Option Char) res, readConfigAux g sect lines = some res →
      List.Chain' (· < ·) (stDirs sect ++ configDirs lines) := by
  induction lines with
  | nil =>
    intro sect res _
    cases sect with
    | none => simp [stDirs, configDirs]
    | some c => simp [stDirs, configDirs]
  | cons line0 rest ih =>
    intro sect res h
    unfold readConfigAux at h
    by_cases h1 : pyStrip line0 = ".resident"
    · rw [if_pos h1] at h
      have hdir : configDirs (line0 :: rest) = 0 :: configDirs rest := by
        simp [configDirs, dirRank, h1]
      by_cases hs : sect = none
      · subst hs
        rw [if_pos rfl] at h
        have := ih (some 'r') res h
        rw [hdir]
        simpa [stDirs, stRank] using this
      · rw [if_neg hs] at h
        cases h
    · rw [if_neg h1] at h
      by_cases h2 : pyStrip line0 = ".nocache"
      · rw [if_pos h2] at h
        have hdir : configDirs (line0 :: rest) = 1 :: configDirs rest := by
          simp [configDirs, dirRank, h1, h2]
        by_cases hs : sect = none ∨ sect = some 'r'
        · rw [if_pos hs] at h
          have hrec : List.Chain' (· < ·) (1 :: configDirs rest) := by
            simpa [stDirs, stRank] using ih (some 'n') res h
          rw [hdir]
          rcases hs with hs | hs <;> subst hs
          · simpa [stDirs] using hrec
          · simp only [stDirs, List.cons_append, List.nil_append]
            have hr : stRank 'r' = 0 := by decide
            rw [hr]
            exact List.chain'_cons.mpr ⟨by norm_num, hrec⟩
        · rw [if_neg hs] at h
          cases h
      · rw [if_neg h2] at h
        by_cases h3 : pyStrip line0 = ".cache"
        · rw [if_pos h3] at h
          have hdir : configDirs (line0 :: rest) = 2 :: configDirs rest := by
            simp [configDirs, dirRank, h1, h2, h3]
          by_cases hs : sect = some 'r' ∨ sect = some 'n'
          · rw [if_pos hs] at h
            have hrec : List.Chain' (· < ·) (2 :: configDirs rest) := by
              simpa [stDirs, stRank] using ih (some 'c') res h
            rw [hdir]
            rcases hs with hs | hs <;> subst hs <;>
              simp only [stDirs, List.cons_append, List.nil_append]
            · have hr : stRank 'r' = 0 := by decide
              rw [hr]
              exact List.chain'_cons.mpr ⟨by norm_num, hrec⟩
            · have hr : stRank 'n' = 1 := by decide
              rw [hr]
              exact List.chain'_cons.mpr ⟨by norm_num, hrec⟩
          · rw [if_neg hs] at h
            cases h
        · rw [if_neg h3] at h
          by_cases h4 : pyStrip line0 = ".sound"
          · rw [if_pos h4] at h
            have hdir : configDirs (line0 :: rest) = 3 :: configDirs rest := by
              simp [configDirs, dirRank, h1, h2, h3, h4]
            by_cases hs : sect = some 'c'
            · rw [if_pos hs] at h
              subst hs
              have hrec : List.Chain' (· < ·) (3 :: configDirs rest) := by
                simpa [stDirs, stRank] using ih (some 's') res h
              rw [hdir]
              simp only [stDirs, List.cons_append, List.nil_append]
              have hr : stRank 'c' = 2 := by decide
              rw [hr]
              exact List.chain'_cons.mpr ⟨by norm_num, hrec⟩
            · rw [if_neg hs] at h
              cases h
          · rw [if_neg h4] at h
            have hdir : configDirs (line0 :: rest) = configDirs rest := by
              simp [configDirs, dirRank, h1, h2, h3, h4]
            cases sect with
            | none => cases h
            | some c =>
              rw [hdir]
              split at h
              · exact Option.noConfusion h
              · rename_i c2 heq
                injection heq with hc
                subst hc
                split at h
                · split at h
                  · rcases Option.map_eq_some'.mp h with ⟨res2, hrec, -⟩
                    exact ih _ res2 hrec
                  · exact Option.noConfusion h
                · exact Option.noConfusion h

/-- C6: a config whose directives are out of the fixed
Resident-NoCache-Cache-Sound order (or repeated) is rejected by the reading
state machine; `.sound` in any state other than Cache is rejected even though
in order; and `.cache` is accepted when `.resident` never appeared (after
`.nocache`). -/
theorem c6_config_order :
    (∀ (lines : List String) (g : String → Option Nat),
        ¬ List.Chain' (· < ·) (configDirs lines) → readConfig g lines = none) ∧
    (∀ (sect : Option Char) (rest : List String) (g : String → Option Nat), sect ≠ some 'c' →
        readConfigAux g sect (".sound" :: rest) = none) ∧
    (∀ g : String → Option Nat, readConfigAux g none [".nocache", ".cache"] = some []) := by
  refine ⟨?_, ?_, ?_⟩
  · intro lines g hnc
    cases hres : readConfig g lines with
    | none => rfl
    | some res =>
      exact absurd (by simpa [stDirs] using readConfigAux_chain g lines none res hres) hnc
  · intro sect rest g hs
    unfold readConfigAux
    have e1 : pyStrip ".sound" = ".sound" := by decide
    rw [e1]
    rw [if_neg (by decide), if_neg (by decide), if_neg (by decide), if_pos rfl, if_neg hs]
  · intro g
    rfl

theorem c6_config_order_witness :
    readConfig (fun _ => none) [".cache", ".resident"] = none ∧
    readConfigAux (fun _ => none) (some 'r') [".sound"] = none ∧
    readConfigAux (fun _ => none) none [".nocache", ".cache"] = some [] :=
  ⟨c6_config_order.1 [".cache", ".resident"] _ (by
      rw [show configDirs [".cache", ".resident"] = [2, 0] from by decide]
      intro hch
      rcases List.chain'_cons.mp hch with ⟨hlt, -⟩
      omega),
   c6_config_order.2.1 (some 'r') [] _ (by decide),
   c6_config_order.2.2 _⟩

/-! ## Byte lengths and alignment arithmetic -/

theorem zeros_length (n : Nat) : (zeros n).length = n := List.length_replicate n 0

theorem zeros_add (a b : Nat) : zeros (a + b) = zeros a ++ zeros b :=
  List.replicate_add a b 0

theorem u16le_length (v : Nat) : (u16le v).length = 2 := rfl

theorem u32le_length (v : Nat) : (u32le v).length = 4 := rfl

theorem recordBytes_length (r : Record) : (recordBytes r).length = 8 := rfl

theorem recordsBytes_length (rs : List Record) : (recordsBytes rs).length = 8 * rs.length := by
  induction rs with
  | nil => rfl
  | cons r rest ih =>
    simp only [recordsBytes, List.flatMap_cons, List.length_append, recordBytes_length,
      List.length_cons]
    simp only [recordsBytes] at ih
    omega

theorem alignUp_ge (x : Nat) : x ≤ alignUp 2048 x := by
  unfold alignUp
  omega

theorem alignUp_lt (x : Nat) : alignUp 2048 x < x + 2048 := by
  unfold alignUp
  omega

theorem alignUp_mod (x : Nat) : alignUp 2048 x % 2048 = 0 := by
  unfold alignUp
  omega

theorem alignUp_of_mod (x : Nat) (h : x % 2048 = 0) : alignUp 2048 x = x := by
  unfold alignUp
  omega

theorem alignUp_add_mul (k x : Nat) : alignUp 2048 (2048 * k + x) = 2048 * k + alignUp 2048 x := by
  unfold alignUp
  omega

/-! ## Writer lemmas -/

theorem write_at_end (d : List Nat) (p : Nat) (bs : List Nat) (h : d.length ≤ p) :
    BufWriter.write ⟨d, p⟩ bs = ⟨d ++ zeros (p - d.length) ++ bs, p + bs.length⟩ := by
  have hlen : (d ++ zeros (p - d.length)).length = p := by
    simp only [List.length_append, zeros_length]
    omega
  show (⟨(d ++ zeros (p - d.length)).take p ++ bs
      ++ (d ++ zeros (p - d.length)).drop (p + bs.length), p + bs.length⟩ : BufWriter) = _
  rw [List.take_of_length_le (le_of_eq hlen), List.drop_eq_nil_of_le (by omega),
    List.append_nil]

theorem write_exact (pre mid post bs : List Nat) (h : bs.length = mid.length) :
    BufWriter.write ⟨pre ++ mid ++ post, pre.length⟩ bs
      = ⟨pre ++ bs ++ post, pre.length + bs.length⟩ := by
  have h0 : pre.length ≤ (pre ++ mid ++ post).length := by simp
  show (⟨(pre ++ mid ++ post
        ++ zeros (pre.length - (pre ++ mid ++ post).length)).take pre.length ++ bs
      ++ (pre ++ mid ++ post
        ++ zeros (pre.length - (pre ++ mid ++ post).length)).drop (pre.length + bs.length),
      pre.length + bs.length⟩ : BufWriter) = _
  rw [show pre.length - (pre ++ mid ++ post).length = 0 by omega]
  rw [show zeros 0 = ([] : List Nat) from rfl, List.append_nil]
  have htake : (pre ++ mid ++ post).take pre.length = pre := by
    rw [List.append_assoc pre mid post, List.take_left]
  have hdrop : (pre ++ mid ++ post).drop (pre.length + bs.length) = post := by
    rw [List.append_assoc pre mid post, List.drop_append_eq_append_drop]
    rw [show pre.length + bs.length - pre.length = bs.length by omega]
    rw [List.drop_eq_nil_of_le (by omega), List.nil_append]
    rw [List.drop_append_eq_append_drop]
    rw [show bs.length - mid.length = 0 by omega]
    rw [List.drop_eq_nil_of_le (by omega), List.nil_append, List.drop_zero]
  rw [htake, hdrop]

theorem align_at_end (d : List Nat) (p : Nat) (h : d.length ≤ p) :
    BufWriter.align ⟨d, p⟩ 2048
      = ⟨d ++ zeros (p - d.length) ++ zeros (alignUp 2048 p - p), alignUp 2048 p⟩ := by
  unfold BufWriter.align
  rw [show (⟨d, p⟩ : BufWriter).pos = p from rfl]
  rw [write_at_end d p _ h]
  congr 1
  rw [zeros_length]
  have := alignUp_ge p
  omega

/-! ## Payload layout -/

/-- The bytes the payload loop emits when the cursor starts at absolute
position `off`: each file's content, followed by padding to the next 2048
boundary except mid cache run. -/
def payloadAux : Nat → List StFile → List Nat
  | _, [] => []
  | off, f :: rest =>
    let off2 := off + f.size
    if f.sect ≠ 'c' then
      f.content ++ zeros (alignUp 2048 off2 - off2) ++ payloadAux (alignUp 2048 off2) rest
    else if nextIsC rest then
      f.content ++ payloadAux off2 rest
    else
      f.content ++ zeros (alignUp 2048 off2 - off2) ++ payloadAux (alignUp 2048 off2) rest

theorem write_end_exact (d bs : List Nat) :
    BufWriter.write ⟨d, d.length⟩ bs = ⟨d ++ bs, d.length + bs.length⟩ := by
  rw [write_at_end d d.length bs (le_refl _)]
  simp [zeros]

theorem align_end_exact (d : List Nat) :
    BufWriter.align ⟨d, d.length⟩ 2048
      = ⟨d ++ zeros (alignUp 2048 d.length - d.length), alignUp 2048 d.length⟩ := by
  rw [align_at_end d d.length (le_refl _)]
  simp [zeros]

theorem writePayload_spec (files : List StFile) : ∀ (d : List Nat) (q : Nat),
    d.length = q →
    writePayload files ⟨d, q⟩
      = ⟨d ++ payloadAux q files, q + (payloadAux q files).length⟩ := by
  induction files with
  | nil =>
    intro d q h
    simp [writePayload, payloadAux]
  | cons f rest ih =>
    intro d q h
    subst h
    simp only [writePayload, payloadAux, StFile.size]
    rw [write_end_exact]
    by_cases hc : f.sect ≠ 'c'
    · rw [if_pos hc, if_pos hc]
      rw [show d.length + f.content.length = (d ++ f.content).length by simp]
      rw [align_end_exact (d ++ f.content)]
      rw [ih _ _ (by
        simp only [List.length_append, zeros_length]
        have hge := alignUp_ge (d.length + f.content.length)
        omega)]
      simp only [BufWriter.mk.injEq, List.length_append, zeros_length]
      exact ⟨by simp [List.append_assoc],
        by have hge := alignUp_ge (d.length + f.content.length); omega⟩
    · rw [if_neg hc, if_neg hc]
      by_cases hn : nextIsC rest = true
      · rw [if_pos hn, if_pos hn]
        rw [show d.length + f.content.length = (d ++ f.content).length by simp]
        rw [ih _ _ rfl]
        simp only [BufWriter.mk.injEq, List.length_append]
        exact ⟨by simp [List.append_assoc], by omega⟩
      · rw [if_neg hn, if_neg hn]
        rw [show d.length + f.content.length = (d ++ f.content).length by simp]
        rw [align_end_exact (d ++ f.content)]
        rw [ih _ _ (by
          simp only [List.length_append, zeros_length]
          have hge := alignUp_ge (d.length + f.content.length)
          omega)]
        simp only [BufWriter.mk.injEq, List.length_append, zeros_length]
        exact ⟨by simp [List.append_assoc],
          by have hge := alignUp_ge (d.length + f.content.length); omega⟩

theorem payloadAux_shift (files : List StFile) : ∀ (k t : Nat),
    payloadAux (2048 * k + t) files = payloadAux t files := by
  induction files with
  | nil => intro k t; rfl
  | cons f rest ih =>
    intro k t
    simp only [payloadAux, StFile.size]
    have h1 : 2048 * k + t + f.content.length = 2048 * k + (t + f.content.length) := by omega
    rw [h1, alignUp_add_mul]
    have h2 : 2048 * k + alignUp 2048 (t + f.content.length) - (2048 * k + (t + f.content.length))
        = alignUp 2048 (t + f.content.length) - (t + f.content.length) := by omega
    rw [h2]
    rw [show 2048 * k + alignUp 2048 (t + f.content.length)
        = 2048 * k + alignUp 2048 (t + f.content.length) from rfl]
    rw [ih k (alignUp 2048 (t + f.content.length)), ih k (t + f.content.length)]

theorem payloadAux_end (files : List StFile) : ∀ (t : Nat), files ≠ [] →
    (t + (payloadAux t files).length) % 2048 = 0 := by
  induction files with
  | nil => intro t h; exact absurd rfl h
  | cons f rest ih =>
    intro t _
    simp only [payloadAux, StFile.size]
    by_cases hc : f.sect ≠ 'c'
    · rw [if_pos hc]
      cases hrest : rest with
      | nil =>
        simp only [payloadAux, List.append_nil, List.length_append, zeros_length]
        have h1 := alignUp_ge (t + f.content.length)
        have h2 := alignUp_mod (t + f.content.length)
        omega
      | cons g grest =>
        have ihr := ih (alignUp 2048 (t + f.content.length)) (by simp [hrest])
        rw [← hrest]
        simp only [List.length_append, zeros_length]
        have h1 := alignUp_ge (t + f.content.length)
        omega
    · rw [if_neg hc]
      by_cases hn : nextIsC rest = true
      · rw [if_pos hn]
        have hrne : rest ≠ [] := by
          cases rest with
          | nil => simp [nextIsC] at hn
          | cons g grest => simp
        have ihr := ih (t + f.content.length) hrne
        simp only [List.length_append]
        omega
      · rw [if_neg hn]
        cases hrest : rest with
        | nil =>
          simp only [payloadAux, List.append_nil, List.length_append, zeros_length]
          have h1 := alignUp_ge (t + f.content.length)
          have h2 := alignUp_mod (t + f.content.length)
          omega
        | cons g grest =>
          have ihr := ih (alignUp 2048 (t + f.content.length)) (by simp [hrest])
          rw [← hrest]
          simp only [List.length_append, zeros_length]
          have h1 := alignUp_ge (t + f.content.length)
          omega

/-! ## Stage byte layout -/

/-- The aligned size of the record area: sub-header plus all emitted records
(trailers included), padded to the next sector. -/
def recsA (files : List StFile) : Nat := alignUp 2048 (4 + 8 * (packRecords files).length)

/-- The value back-patched as the first sub-header field: the source computes
it from `4 + len(files) * 8`, NOT counting the cache trailer records. -/
def hdrVal (files : List StFile) : Nat := alignUp 2048 (4 + files.length * 8) / 2048

/-- The byte length of one packed stage. -/
def stageSize (files : List StFile) : Nat := recsA files + (payloadAux 0 files).length

/-- The bytes of one packed stage, as laid out at a sector-aligned start:
back-patched sub-header, records, zero padding to a sector, payload. -/
def stageBytes (files : List StFile) : List Nat :=
  u16le (hdrVal files) ++ u16le (stageSize files / 2048)
    ++ recordsBytes (packRecords files)
    ++ zeros (recsA files - (4 + 8 * (packRecords files).length))
    ++ payloadAux 0 files

theorem recsA_ge (files : List StFile) : 4 + 8 * (packRecords files).length ≤ recsA files :=
  alignUp_ge _

theorem recsA_mod (files : List StFile) : recsA files % 2048 = 0 := alignUp_mod _

theorem stageBytes_length (files : List StFile) :
    (stageBytes files).length = stageSize files := by
  have h := recsA_ge files
  simp only [stageBytes, List.length_append, u16le_length, zeros_length, recordsBytes_length,
    stageSize]
  omega

theorem stageSize_mod (files : List StFile) : stageSize files % 2048 = 0 := by
  unfold stageSize
  have h1 := recsA_mod files
  cases hf : files with
  | nil =>
    rw [hf] at h1
    simpa [payloadAux] using h1
  | cons f rest =>
    have h2 := payloadAux_end files 0 (by simp [hf])
    rw [← hf]
    omega

theorem pack_core (files : List StFile) (d : List Nat) (p : Nat)
    (hd : d.length ≤ p) (hp : p % 2048 = 0) :
    writePayload files
        (BufWriter.align
          (BufWriter.write ⟨d, p + 4⟩ (recordsBytes (packRecords files))) 2048)
      = ⟨d ++ zeros (p - d.length) ++ zeros 4 ++ recordsBytes (packRecords files)
           ++ zeros (recsA files - (4 + 8 * (packRecords files).length))
           ++ payloadAux 0 files,
         p + stageSize files⟩ := by
  obtain ⟨k, hk⟩ : ∃ k, p = 2048 * k := ⟨p / 2048, by omega⟩
  have e1 : BufWriter.write ⟨d, p + 4⟩ (recordsBytes (packRecords files))
      = ⟨d ++ zeros (p - d.length) ++ zeros 4 ++ recordsBytes (packRecords files),
         p + (4 + 8 * (packRecords files).length)⟩ := by
    rw [write_at_end d (p + 4) _ (by omega)]
    have hz : zeros (p + 4 - d.length) = zeros (p - d.length) ++ zeros 4 := by
      rw [← zeros_add]
      congr 1
      omega
    rw [hz, recordsBytes_length]
    simp only [BufWriter.mk.injEq]
    exact ⟨by simp [List.append_assoc], by omega⟩
  rw [e1]
  have hD1len : (d ++ zeros (p - d.length) ++ zeros 4
      ++ recordsBytes (packRecords files)).length
      = p + (4 + 8 * (packRecords files).length) := by
    simp only [List.length_append, zeros_length, recordsBytes_length]
    omega
  have e2 : BufWriter.align
      ⟨d ++ zeros (p - d.length) ++ zeros 4 ++ recordsBytes (packRecords files),
       p + (4 + 8 * (packRecords files).length)⟩ 2048
      = ⟨d ++ zeros (p - d.length) ++ zeros 4 ++ recordsBytes (packRecords files)
           ++ zeros (recsA files - (4 + 8 * (packRecords files).length)),
         p + recsA files⟩ := by
    rw [← hD1len, align_end_exact, hD1len]
    rw [hk, alignUp_add_mul]
    simp only [BufWriter.mk.injEq]
    constructor
    · rw [show 2048 * k + alignUp 2048 (4 + 8 * (packRecords files).length)
          - (2048 * k + (4 + 8 * (packRecords files).length))
          = alignUp 2048 (4 + 8 * (packRecords files).length)
            - (4 + 8 * (packRecords files).length) by omega]
      rw [show recsA files = alignUp 2048 (4 + 8 * (packRecords files).length) from rfl]
    · rw [show recsA files = alignUp 2048 (4 + 8 * (packRecords files).length) from rfl]
  rw [e2]
  obtain ⟨k2, hk2⟩ : ∃ k2, recsA files = 2048 * k2 :=
    ⟨recsA files / 2048, by have := recsA_mod files; omega⟩
  have e3 := writePayload_spec files
    (d ++ zeros (p - d.length) ++ zeros 4 ++ recordsBytes (packRecords files)
      ++ zeros (recsA files - (4 + 8 * (packRecords files).length)))
    (p + recsA files)
    (by
      simp only [List.length_append, zeros_length, recordsBytes_length]
      have := recsA_ge files
      omega)
  rw [e3]
  have hshift : payloadAux (p + recsA files) files = payloadAux 0 files := by
    rw [show p + recsA files = 2048 * (k + k2) + 0 by omega, payloadAux_shift]
  rw [hshift]
  simp only [BufWriter.mk.injEq]
  exact ⟨by simp [List.append_assoc], by simp [stageSize]; omega⟩

theorem writer_data_mk (d : List Nat) (p : Nat) : (⟨d, p⟩ : BufWriter).data = d := rfl

theorem writer_pos_mk (d : List Nat) (p : Nat) : (⟨d, p⟩ : BufWriter).pos = p := rfl

theorem pack_stage_spec (files : List StFile) (d : List Nat) (p : Nat)
    (hd : d.length ≤ p) (hp : p % 2048 = 0) :
    pack_stage files ⟨d, p⟩
      = (⟨d ++ zeros (p - d.length) ++ stageBytes files, p + stageSize files⟩,
         stageSize files, decide (files.length > 255)) := by
  simp only [pack_stage, BufWriter.cur, BufWriter.seek, writer_pos_mk, writer_data_mk]
  rw [pack_core files d p hd hp]
  simp only [writer_data_mk, writer_pos_mk]
  rw [show p + stageSize files - p = stageSize files by omega]
  have hhv : (4 + files.length * 8 + 2047) / 2048 * 2048 / 2048 = hdrVal files := by
    unfold hdrVal alignUp
    norm_num
  rw [hhv]
  have h4 : zeros 4 = ([0, 0] : List Nat) ++ [0, 0] := rfl
  set pre := d ++ zeros (p - d.length) with hpre
  have hple : pre.length = p := by
    simp only [hpre, List.length_append, zeros_length]
    omega
  have hre1 : pre ++ zeros 4 ++ recordsBytes (packRecords files)
        ++ zeros (recsA files - (4 + 8 * (packRecords files).length)) ++ payloadAux 0 files
      = pre ++ [0, 0]
        ++ ([0, 0] ++ (recordsBytes (packRecords files)
          ++ (zeros (recsA files - (4 + 8 * (packRecords files).length))
            ++ payloadAux 0 files))) := by
    rw [h4]
    simp [List.append_assoc]
  rw [hre1, ← hple]
  rw [write_exact pre [0, 0] _ (u16le (hdrVal files)) rfl, u16le_length]
  have hre2 : pre ++ u16le (hdrVal files)
        ++ ([0, 0] ++ (recordsBytes (packRecords files)
          ++ (zeros (recsA files - (4 + 8 * (packRecords files).length))
            ++ payloadAux 0 files)))
      = (pre ++ u16le (hdrVal files)) ++ [0, 0]
        ++ (recordsBytes (packRecords files)
          ++ (zeros (recsA files - (4 + 8 * (packRecords files).length))
            ++ payloadAux 0 files)) := by
    simp [List.append_assoc]
  rw [hre2]
  have hple2 : (pre ++ u16le (hdrVal files)).length = pre.length + 2 := by
    simp [u16le_length]
  rw [← hple2]
  rw [write_exact (pre ++ u16le (hdrVal files)) [0, 0] _ (u16le (stageSize files / 2048)) rfl]
  simp only [writer_data_mk, writer_pos_mk, Prod.mk.injEq, BufWriter.mk.injEq]
  simp [stageBytes, hple, List.append_assoc]

/-! ## Container layout -/

/-- The concatenated bytes of all stages. -/
def stagesBytes : List Stage → List Nat
  | [] => []
  | st :: rest => stageBytes st.files ++ stagesBytes rest

/-- The total byte length of all stages. -/
def stagesTotal : List Stage → Nat
  | [] => 0
  | st :: rest => stageSize st.files + stagesTotal rest

/-- The name/size pairs the stage loop records. -/
def sizesOf (stages : List Stage) : List (String × Nat) :=
  stages.map (fun st => (st.name, stageSize st.files))

/-- The start positions of the stages, laid out from `p`. -/
def startsFrom (p : Nat) : List Stage → List Nat
  | [] => []
  | st :: rest => p :: startsFrom (p + stageSize st.files) rest

/-- The sector offsets the table loop writes, starting from `off`. -/
def offsFrom (off : Nat) : List (String × Nat) → List Nat
  | [] => []
  | (_, size) :: rest => off :: offsFrom (off + (size + 2047) / 2048) rest

theorem stageSize_ge (files : List StFile) : 2048 ≤ stageSize files := by
  unfold stageSize recsA alignUp
  have : (4 + 8 * (packRecords files).length + (2048 - 1)) / 2048 ≥ 1 := by omega
  omega

theorem stagesTotal_mod (stages : List Stage) : stagesTotal stages % 2048 = 0 := by
  induction stages with
  | nil => rfl
  | cons st rest ih =>
    have h := stageSize_mod st.files
    simp only [stagesTotal]
    omega

theorem write_pos (b : BufWriter) (bs : List Nat) : (b.write bs).pos = b.pos + bs.length := rfl

theorem packStagesLoop_proj (stages : List Stage) : ∀ (d : List Nat) (p : Nat),
    d.length ≤ p → p % 2048 = 0 →
    (packStagesLoop stages ⟨d, p⟩).2.1 = sizesOf stages ∧
    (packStagesLoop stages ⟨d, p⟩).2.2 = startsFrom p stages ∧
    (packStagesLoop stages ⟨d, p⟩).1.pos = p + stagesTotal stages ∧
    (packStagesLoop stages ⟨d, p⟩).1.data.length
      = if stages.isEmpty then d.length else p + stagesTotal stages := by
  induction stages with
  | nil =>
    intro d p hd hp
    simp [packStagesLoop, stagesTotal, sizesOf, startsFrom]
  | cons st rest ih =>
    intro d p hd hp
    simp only [packStagesLoop, BufWriter.cur, writer_pos_mk]
    rw [pack_stage_spec st.files d p hd hp]
    have hlen : (d ++ zeros (p - d.length) ++ stageBytes st.files).length
        = p + stageSize st.files := by
      simp only [List.length_append, zeros_length, stageBytes_length]
      omega
    have halign : BufWriter.align
        ⟨d ++ zeros (p - d.length) ++ stageBytes st.files, p + stageSize st.files⟩ 2048
        = ⟨d ++ zeros (p - d.length) ++ stageBytes st.files, p + stageSize st.files⟩ := by
      rw [← hlen, align_end_exact]
      rw [alignUp_of_mod _ (by have := stageSize_mod st.files; rw [hlen]; omega)]
      simp [zeros]
    simp only [halign]
    have ihr := ih (d ++ zeros (p - d.length) ++ stageBytes st.files) (p + stageSize st.files)
      (le_of_eq hlen) (by have := stageSize_mod st.files; omega)
    refine ⟨?_, ?_, ?_, ?_⟩
    · simp only [sizesOf, List.map_cons]
      rw [ihr.1]
      rfl
    · simp only [startsFrom]
      rw [ihr.2.1]
    · rw [ihr.2.2.1]
      simp only [stagesTotal]
      omega
    · rw [ihr.2.2.2]
      simp only [List.isEmpty_cons, stagesTotal]
      cases rest with
      | nil =>
        simp [stagesTotal]
        simp only [List.length_append, zeros_length, stageBytes_length] at hlen ⊢
        omega
      | cons st2 r2 => simp [stagesTotal]; omega

theorem writeTable_offs (sizes : List (String × Nat)) : ∀ (off : Nat) (buf : BufWriter),
    (writeTable sizes off buf).2 = offsFrom off sizes := by
  induction sizes with
  | nil => intro off buf; rfl
  | cons sz rest ih =>
    intro off buf
    cases sz with
    | mk name size =>
      simp only [writeTable, offsFrom]
      rw [ih]

theorem write_length (b : BufWriter) (bs : List Nat) :
    (b.write bs).data.length = max b.data.length (b.pos + bs.length) := by
  unfold BufWriter.write
  simp only [List.length_append, List.length_take, List.length_drop, zeros_length]
  omega

theorem fixedStr8_length (s : String) : (fixedStr8 s).length = 8 := by
  unfold fixedStr8
  simp only [List.length_append, List.length_take, List.length_map, zeros_length]
  have : s.length = s.data.length := rfl
  omega

theorem writeTable_length (sizes : List (String × Nat)) : ∀ (off : Nat) (b : BufWriter),
    b.pos + 12 * sizes.length ≤ b.data.length →
    (writeTable sizes off b).1.data.length = b.data.length := by
  induction sizes with
  | nil => intro off b _; rfl
  | cons sz rest ih =>
    intro off b hle
    simp only [List.length_cons] at hle
    cases sz with
    | mk name size =>
      simp only [writeTable]
      have h1 : ((b.write (fixedStr8 name)).write (u32le off)).data.length = b.data.length := by
        rw [write_length, write_length, write_pos, fixedStr8_length, u32le_length]
        omega
      have h2 : ((b.write (fixedStr8 name)).write (u32le off)).pos = b.pos + 12 := by
        rw [write_pos, write_pos, fixedStr8_length, u32le_length]
      rw [ih (off + (size + 2047) / 2048) _ (by rw [h1, h2]; omega)]
      exact h1

theorem alignUp_formula (x : Nat) : (x + 2047) / 2048 * 2048 = alignUp 2048 x := by
  unfold alignUp
  norm_num

theorem stagesTotal_ge (st : Stage) (rest : List Stage) :
    2048 ≤ stagesTotal (st :: rest) := by
  simp only [stagesTotal]
  have := stageSize_ge st.files
  omega

theorem sizesOf_length (stages : List Stage) : (sizesOf stages).length = stages.length := by
  simp [sizesOf]

theorem pack_dir_proj (stages : List Stage) (h : stages ≠ []) :
    (pack_dir stages).sizes = sizesOf stages ∧
    (pack_dir stages).starts = startsFrom (alignUp 2048 (stages.length * 12)) stages ∧
    (pack_dir stages).offs = offsFrom 1 (sizesOf stages) ∧
    (pack_dir stages).data.length = alignUp 2048 (stages.length * 12) + stagesTotal stages := by
  obtain ⟨st, rest, hsr⟩ : ∃ st rest, stages = st :: rest := by
    cases stages with
    | nil => exact absurd rfl h
    | cons a b => exact ⟨a, b, rfl⟩
  simp only [pack_dir]
  have e0 : BufWriter.write ⟨[], 0⟩ (u32le (stages.length * 12))
      = ⟨u32le (stages.length * 12), 4⟩ := by
    rw [write_at_end [] 0 _ (by simp)]
    simp [zeros, u32le_length]
  rw [e0]
  simp only [BufWriter.seek]
  rw [alignUp_formula (stages.length * 12)]
  have hn1 : 1 ≤ stages.length := by rw [hsr]; simp
  have hP0 : 2048 ≤ alignUp 2048 (stages.length * 12) := by
    unfold alignUp
    omega
  have hloop := packStagesLoop_proj stages (u32le (stages.length * 12))
    (alignUp 2048 (stages.length * 12)) (by rw [u32le_length]; omega) (alignUp_mod _)
  have hne : stages.isEmpty = false := by rw [hsr]; rfl
  rw [hne] at hloop
  simp only [if_false, Bool.false_eq_true] at hloop
  have hdlen : (packStagesLoop stages
      ⟨u32le (stages.length * 12), alignUp 2048 (stages.length * 12)⟩).1.data.length
      = alignUp 2048 (stages.length * 12) + stagesTotal stages := hloop.2.2.2
  have htot : 2048 ≤ stagesTotal stages := by rw [hsr]; exact stagesTotal_ge st rest
  have hxn : stages.length * 12 ≤ alignUp 2048 (stages.length * 12) := alignUp_ge _
  refine ⟨hloop.1, hloop.2.1, ?_, ?_⟩
  · rw [writeTable_offs, hloop.1]
  · rw [writeTable_length]
    · exact hdlen
    · simp only [BufWriter.seek, hloop.1, sizesOf_length]
      rw [hdlen]
      omega

/-- C4 amended helper: the written offsets track the accumulated stage starts. -/
theorem offs_starts_zip (stages : List Stage) : ∀ (o p : Nat), p = 2048 * o →
    ∀ pair ∈ (offsFrom o (sizesOf stages)).zip (startsFrom p stages),
      pair.1 * 2048 = pair.2 := by
  induction stages with
  | nil =>
    intro o p _ pair hp
    simp [sizesOf, offsFrom, startsFrom] at hp
  | cons st rest ih =>
    intro o p hpo pair hp
    simp only [sizesOf, List.map_cons, offsFrom, startsFrom, List.zip_cons_cons,
      List.mem_cons] at hp
    rcases hp with hp | hp
    · rw [hp]
      simp
      omega
    · have hS := stageSize_mod st.files
      exact ih (o + (stageSize st.files + 2047) / 2048) (p + stageSize st.files)
        (by omega) pair (by simpa [sizesOf] using hp)

/-- C4 amended: for a container of at most 170 stages (so that the stage table
fits in the first sector, as the fixed starting offset 1 assumes), every
sector offset written into the stage table, multiplied by 2048, is exactly the
byte position at which the corresponding stage's bytes were written, which is
where unpack's `seek(offset * 2048)` lands. -/
theorem c4_table_offsets (stages : List Stage) (h : stages.length ≤ 170) :
    ∀ pair ∈ ((pack_dir stages).offs).zip ((pack_dir stages).starts),
      pair.1 * 2048 = pair.2 := by
  cases hs : stages with
  | nil =>
    intro pair hp
    rw [show (pack_dir ([] : List Stage)).offs = [] from rfl] at hp
    simp at hp
  | cons st rest =>
    rw [hs] at h
    have hproj := pack_dir_proj (st :: rest) (by simp)
    intro pair hp
    rw [hproj.2.2.1, hproj.2.1] at hp
    have hP0 : alignUp 2048 ((st :: rest).length * 12) = 2048 := by
      simp only [List.length_cons] at h ⊢
      unfold alignUp
      omega
    rw [hP0] at hp
    exact offs_starts_zip (st :: rest) 1 2048 (by omega) pair hp

theorem c4_table_offsets_witness :
    ([⟨"s01", [⟨"a", "dar", 'r', [1]⟩]⟩] : List Stage).length ≤ 170
    ∧ (1, 2048) ∈ ((pack_dir [⟨"s01", [⟨"a", "dar", 'r', [1]⟩]⟩]).offs).zip
        ((pack_dir [⟨"s01", [⟨"a", "dar", 'r', [1]⟩]⟩]).starts)
    ∧ (1 : Nat) * 2048 = 2048 := by
  have hproj := pack_dir_proj [⟨"s01", [⟨"a", "dar", 'r', [1]⟩]⟩] (by simp)
  have hmem : ((1 : Nat), (2048 : Nat))
      ∈ ((pack_dir [⟨"s01", [⟨"a", "dar", 'r', [1]⟩]⟩]).offs).zip
        ((pack_dir [⟨"s01", [⟨"a", "dar", 'r', [1]⟩]⟩]).starts) := by
    rw [hproj.2.2.1, hproj.2.1]
    rw [show alignUp 2048 (([⟨"s01", [⟨"a", "dar", 'r', [1]⟩]⟩] : List Stage).length * 12)
      = 2048 by decide]
    simp [offsFrom, startsFrom, sizesOf]
  exact ⟨by decide, hmem,
    c4_table_offsets [⟨"s01", [⟨"a", "dar", 'r', [1]⟩]⟩] (by decide) (1, 2048) hmem⟩

/-- C4 counterexample: with 171 stages the stage table needs more than one
sector, so the first stage is written at byte 4096, yet the table still
records sector offset 1 (byte 2048) for it. -/
theorem c4_counterexample_171_stages :
    (pack_dir (List.replicate 171 ⟨"s", []⟩)).offs.head? = some 1 ∧
    (pack_dir (List.replicate 171 ⟨"s", []⟩)).starts.head? = some 4096 ∧
    (1 : Nat) * 2048 ≠ 4096 := by
  have hproj := pack_dir_proj (List.replicate 171 ⟨"s", []⟩) (by simp)
  refine ⟨?_, ?_, by decide⟩
  · rw [hproj.2.2.1]
    rfl
  · rw [hproj.2.1]
    decide

/-- C8 amended helper. -/
theorem startsFrom_mod (stages : List Stage) : ∀ p, p % 2048 = 0 →
    ∀ s ∈ startsFrom p stages, s % 2048 = 0 := by
  induction stages with
  | nil => intro p _ s hs; simp [startsFrom] at hs
  | cons st rest ih =>
    intro p hp s hs
    simp only [startsFrom, List.mem_cons] at hs
    rcases hs with hs | hs
    · omega
    · have := stageSize_mod st.files
      exact ih (p + stageSize st.files) (by omega) s hs

/-- C8 amended: for every container packed from a nonempty stage list, the
stage table size is a multiple of 12, every stage's bytes start at a 2048-byte
sector boundary, and the total file length is a multiple of 2048.  (The empty
stage list yields a 4-byte file, see the counterexample.) -/
theorem c8_container_invariants (stages : List Stage) (h : stages ≠ []) :
    (stages.length * 12) % 12 = 0 ∧
    (∀ s ∈ (pack_dir stages).starts, s % 2048 = 0) ∧
    (pack_dir stages).data.length % 2048 = 0 := by
  have hproj := pack_dir_proj stages h
  refine ⟨by omega, ?_, ?_⟩
  · rw [hproj.2.1]
    exact startsFrom_mod stages _ (alignUp_mod _)
  · rw [hproj.2.2.2]
    have h1 := stagesTotal_mod stages
    have h2 := alignUp_mod (stages.length * 12)
    omega

theorem c8_container_invariants_witness :
    (([⟨"s01", [⟨"a", "dar", 'r', [1]⟩]⟩] : List Stage).length * 12) % 12 = 0 ∧
    (∀ s ∈ (pack_dir [⟨"s01", [⟨"a", "dar", 'r', [1]⟩]⟩]).starts, s % 2048 = 0) ∧
    (pack_dir [⟨"s01", [⟨"a", "dar", 'r', [1]⟩]⟩]).data.length % 2048 = 0 :=
  c8_container_invariants [⟨"s01", [⟨"a", "dar", 'r', [1]⟩]⟩] (by simp)

/-- C8 counterexample: packing an empty stage list produces a 4-byte file,
whose length is not a multiple of 2048. -/
theorem c8_counterexample_empty_container :
    (pack_dir []).data.length = 4 ∧ (pack_dir []).data.length % 2048 ≠ 0 := by
  constructor
  · rfl
  · decide

/-- C5: at the failing input of 255 files forming one cache run, 256 records
are emitted (2052 record-area bytes, two sectors with the sub-header), but the
code back-patches `header_sectors` from `4 + 8 * 255` bytes, trailer excluded,
giving 1; the claim's formula over every emitted record gives 2; the first two
bytes of the packed stage are the little-endian 1. -/
theorem c5_header_backpatch_bug :
    (packRecords (List.replicate 255 ⟨"x", "dar", 'c', []⟩)).length = 256 ∧
    hdrVal (List.replicate 255 ⟨"x", "dar", 'c', []⟩) = 1 ∧
    alignUp 2048 (4 + 8 * (packRecords (List.replicate 255 ⟨"x", "dar", 'c', []⟩)).length) / 2048
      = 2 ∧
    (pack_stage (List.replicate 255 ⟨"x", "dar", 'c', []⟩) ⟨[], 0⟩).1.data.take 2 = u16le 1 := by
  refine ⟨by decide, by decide, by decide, ?_⟩
  rw [pack_stage_spec _ [] 0 (by simp) (by simp)]
  simp only [writer_data_mk, stageBytes, List.nil_append]
  rw [show zeros (0 - ([] : List Nat).length) = [] from rfl, List.nil_append]
  rw [List.append_assoc, List.append_assoc, List.append_assoc]
  rw [show (2 : Nat) = (u16le (hdrVal (List.replicate 255 ⟨"x", "dar", 'c', []⟩))).length
    from rfl]
  rw [List.take_left]
  rw [show hdrVal (List.replicate 255 ⟨"x", "dar", 'c', []⟩) = 1 from by decide]

/-! ## Reader lemmas -/

theorem reader_data_mk (d : List Nat) (p : Nat) : (⟨d, p⟩ : BufReader).data = d := rfl

theorem reader_pos_mk (d : List Nat) (p : Nat) : (⟨d, p⟩ : BufReader).pos = p := rfl

theorem drop_shift (D : List Nat) (q n : Nat) (A B : List Nat)
    (h : D.drop q = A ++ B) (hA : A.length = n) : D.drop (q + n) = B := by
  rw [show q + n = q + n from rfl, ← List.drop_drop n q D, h, ← hA, List.drop_left]

theorem readU8_at (D : List Nat) (q b : Nat) (rest2 : List Nat)
    (h : D.drop q = b :: rest2) :
    BufReader.readU8 ⟨D, q⟩ = some (b, ⟨D, q + 1⟩) := by
  unfold BufReader.readU8
  rw [reader_data_mk, reader_pos_mk, h]

theorem readU16_at (D : List Nat) (q v : Nat) (rest2 : List Nat)
    (h : D.drop q = u16le v ++ rest2) :
    BufReader.readU16 ⟨D, q⟩ = some (v % 65536, ⟨D, q + 2⟩) := by
  unfold BufReader.readU16
  rw [reader_data_mk, reader_pos_mk, h]
  simp only [u16le, List.cons_append, List.nil_append]
  congr 2
  omega

theorem readU32_at (D : List Nat) (q v : Nat) (rest2 : List Nat)
    (h : D.drop q = u32le v ++ rest2) :
    BufReader.readU32 ⟨D, q⟩ = some (v % 4294967296, ⟨D, q + 4⟩) := by
  unfold BufReader.readU32
  rw [reader_data_mk, reader_pos_mk, h]
  simp only [u32le, List.cons_append, List.nil_append]
  congr 2
  omega

theorem readU32_any (D : List Nat) (q : Nat) (h : 4 ≤ (D.drop q).length) :
    ∃ v, BufReader.readU32 ⟨D, q⟩ = some (v, ⟨D, q + 4⟩) := by
  unfold BufReader.readU32
  rw [reader_data_mk, reader_pos_mk]
  cases h0 : D.drop q with
  | nil => rw [h0] at h; simp at h
  | cons a t0 =>
    cases h1 : t0 with
    | nil => rw [h0, h1] at h; simp at h
    | cons b t1 =>
      cases h2 : t1 with
      | nil => rw [h0, h1, h2] at h; simp at h
      | cons c t2 =>
        cases h3 : t2 with
        | nil => rw [h0, h1, h2, h3] at h; simp at h
        | cons e t3 => exact ⟨_, rfl⟩

/-! ## Expected resolved entries -/

/-- The dictionary key the unpack loop forms for a packed file's record. -/
def keyOf (f : StFile) : String := hexKey (strcode f.name) (extTag f)

/-- A file the stage round trip supports: a section tag among `cnrs`, not the
quirky `bin` extension, no `dar` in the Sound section (unpack would misread it
as a cache trailer), a nonzero checksum with a dictionary hit for named
entries, and a lowercase ASCII extension tag. -/
def GoodFile (table : String → Option String) (f : StFile) : Prop :=
  f.sect ∈ (['r', 'n', 'c', 's'] : List Char) ∧
  f.ext ≠ "bin" ∧
  (f.ext = "dar" → f.sect ≠ 's') ∧
  (f.ext ≠ "dar" → strcode f.name ≠ 0 ∧ (table (keyOf f)).isSome ∧
    (table (keyOf f)).getD "" ≠ "cache_end") ∧
  97 ≤ extTag f ∧ extTag f ≤ 122

instance (table : String → Option String) (f : StFile) : Decidable (GoodFile table f) := by
  unfold GoodFile
  infer_instance

/-- The resolved name of a packed file's record, as the record loop computes
it (with `dn2` the prefix after the resident update). -/
def nmOf (table : String → Option String) (mdl tex : Nat) (dn2 : String) (f : StFile) :
    String :=
  if f.ext = "dar" then
    (if f.sect = 'n' then dn2 ++ "_tex" ++ toString tex ++ ".dar"
     else dn2 ++ "_mdl" ++ toString mdl ++ ".dar")
  else (table (keyOf f)).getD ""

/-- Model-counter update per record. -/
def mdlOf (mdl : Nat) (f : StFile) : Nat :=
  if f.ext = "dar" ∧ f.sect ≠ 'n' then mdl + 1 else mdl

/-- Texture-counter update per record. -/
def texOf (tex : Nat) (f : StFile) : Nat :=
  if f.ext = "dar" ∧ f.sect = 'n' then tex + 1 else tex

/-- Prefix update per record. -/
def dnOf (dn : String) (f : StFile) : String := if f.sect = 'r' then "res" else dn

/-- The entry list the record-reading loop of `unpack_stage` produces from the
records `pack_stage` emits, mirrored structurally: per file its resolved name,
its section character and its stored value, with a `cache_end` trailer entry
closing each cache run. -/
def entriesOfAux (table : String → Option String) (inC : Bool) (cs mdl tex : Nat)
    (dn : String) : List StFile → List (String × Char × Nat)
  | [] => []
  | f :: rest =>
    let inC2 := inC || (f.sect == 'c')
    let v := if inC2 then cs else f.size
    let cs2 := if inC2 then cs + f.size else cs
    if inC2 && !(nextIsC rest) then
      (nmOf table mdl tex (dnOf dn f) f, f.sect, v) :: ("cache_end", 'c', cs2)
        :: entriesOfAux table false cs2 (mdlOf mdl f) (texOf tex f) (dnOf dn f) rest
    else
      (nmOf table mdl tex (dnOf dn f) f, f.sect, v)
        :: entriesOfAux table inC2 cs2 (mdlOf mdl f) (texOf tex f) (dnOf dn f) rest

theorem entriesOfAux_cons_plain (table : String → Option String) (inC : Bool)
    (cs mdl tex : Nat) (dn : String) (f : StFile) (rest : List StFile)
    (hc : (inC || (f.sect == 'c')) = false) :
    entriesOfAux table inC cs mdl tex dn (f :: rest)
      = (nmOf table mdl tex (dnOf dn f) f, f.sect, f.size)
        :: entriesOfAux table false cs (mdlOf mdl f) (texOf tex f) (dnOf dn f) rest := by
  simp [entriesOfAux, hc]

theorem entriesOfAux_cons_mid (table : String → Option String) (inC : Bool)
    (cs mdl tex : Nat) (dn : String) (f : StFile) (rest : List StFile)
    (hc : (inC || (f.sect == 'c')) = true) (hn : nextIsC rest = true) :
    entriesOfAux table inC cs mdl tex dn (f :: rest)
      = (nmOf table mdl tex (dnOf dn f) f, f.sect, cs)
        :: entriesOfAux table true (cs + f.size) (mdlOf mdl f) (texOf tex f) (dnOf dn f)
          rest := by
  simp [entriesOfAux, hc, hn]

theorem entriesOfAux_cons_end (table : String → Option String) (inC : Bool)
    (cs mdl tex : Nat) (dn : String) (f : StFile) (rest : List StFile)
    (hc : (inC || (f.sect == 'c')) = true) (hn : nextIsC rest = false) :
    entriesOfAux table inC cs mdl tex dn (f :: rest)
      = (nmOf table mdl tex (dnOf dn f) f, f.sect, cs)
        :: ("cache_end", 'c', cs + f.size)
        :: entriesOfAux table false (cs + f.size) (mdlOf mdl f) (texOf tex f) (dnOf dn f)
          rest := by
  simp [entriesOfAux, hc, hn]

theorem parse_step (table : String → Option String) (fl mdl tex : Nat) (dn : String)
    (D : List Nat) (q : Nat) (r : Record) (rest2 : List Nat)
    (hdrop : D.drop q = recordBytes r ++ rest2)
    (hname : r.name < 65536) (hmode : r.mode < 256) (hext : r.ext < 256)
    (hvalue : r.value < 4294967296) (hmode0 : r.mode ≠ 0) :
    parseEntries table (fl + 1) mdl tex dn ⟨D, q⟩
      = if r.mode = 99 ∨ r.mode = 110 ∨ r.mode = 114 ∨ r.mode = 115 then
          if (97 ≤ r.ext ∧ r.ext ≤ 122) ∨ r.ext = 255 then
            match (if r.name ≠ 0 then
                     match table (hexKey r.name r.ext) with
                     | some v => some (v, mdl, tex)
                     | none => none
                   else if r.ext ≠ 255 ∧ (r.mode = 99 ∨ r.mode = 114) then
                     some ((if r.mode = 114 then "res" else dn) ++ "_mdl"
                       ++ toString mdl ++ ".dar", mdl + 1, tex)
                   else if r.ext ≠ 255 ∧ r.mode = 110 then
                     some ((if r.mode = 114 then "res" else dn) ++ "_tex"
                       ++ toString tex ++ ".dar", mdl, tex + 1)
                   else some ("cache_end", mdl, tex) : Option (String × Nat × Nat)) with
            | none => none
            | some (nm, mdl2, tex2) =>
              (parseEntries table fl mdl2 tex2
                  (if r.mode = 114 then "res" else dn) ⟨D, q + 8⟩).map
                (fun res => ((nm, Char.ofNat r.mode, r.value) :: res.1, res.2))
          else none
        else none := by
  have h1 : D.drop q = u16le r.name
      ++ ([r.mode % 256, r.ext % 256] ++ (u32le r.value ++ rest2)) := by
    rw [hdrop]
    simp [recordBytes, List.append_assoc]
  have e16 : BufReader.readU16 ⟨D, q⟩ = some (r.name, ⟨D, q + 2⟩) := by
    rw [readU16_at D q r.name _ h1, Nat.mod_eq_of_lt hname]
  have h2 : D.drop (q + 2) = r.mode % 256 :: (r.ext % 256 :: (u32le r.value ++ rest2)) := by
    have := drop_shift D q 2 (u16le r.name)
      ([r.mode % 256, r.ext % 256] ++ (u32le r.value ++ rest2)) h1 (u16le_length _)
    simpa using this
  have e8m : BufReader.readU8 ⟨D, q + 2⟩ = some (r.mode, ⟨D, q + 2 + 1⟩) := by
    rw [readU8_at D (q + 2) (r.mode % 256) _ h2, Nat.mod_eq_of_lt hmode]
  have h3 : D.drop (q + 2 + 1) = r.ext % 256 :: (u32le r.value ++ rest2) :=
    drop_shift D (q + 2) 1 [r.mode % 256] _ h2 rfl
  have e8e : BufReader.readU8 ⟨D, q + 2 + 1⟩ = some (r.ext, ⟨D, q + 2 + 1 + 1⟩) := by
    rw [readU8_at D (q + 2 + 1) (r.ext % 256) _ h3, Nat.mod_eq_of_lt hext]
  have h4 : D.drop (q + 2 + 1 + 1) = u32le r.value ++ rest2 :=
    drop_shift D (q + 2 + 1) 1 [r.ext % 256] _ h3 rfl
  have e32 : BufReader.readU32 ⟨D, q + 2 + 1 + 1⟩
      = some (r.value, ⟨D, q + 2 + 1 + 1 + 4⟩) := by
    rw [readU32_at D (q + 2 + 1 + 1) r.value _ h4, Nat.mod_eq_of_lt hvalue]
  have hpos : q + 2 + 1 + 1 + 4 = q + 8 := by omega
  rw [hpos] at e32
  conv_lhs => unfold parseEntries
  rw [e16]
  simp only []
  rw [e8m]
  simp only []
  rw [e8e]
  simp only []
  rw [e32]
  simp only []
  rw [if_neg hmode0]

theorem recordsBytes_cons (r : Record) (rs : List Record) :
    recordsBytes (r :: rs) = recordBytes r ++ recordsBytes rs := by
  simp [recordsBytes]

theorem strcode_lt (s : String) : strcode s < 65536 :=
  strcode_foldl_lt _ 0 (by norm_num)

theorem parse_term (table : String → Option String) (fl mdl tex : Nat) (dn : String)
    (D : List Nat) (q k : Nat) (rest2 : List Nat)
    (hdrop : D.drop q = zeros k ++ rest2) (hk : 4 ≤ k) (hlen : 8 ≤ k + rest2.length) :
    parseEntries table (fl + 1) mdl tex dn ⟨D, q⟩ = some ([], ⟨D, q + 8⟩) := by
  have hz : zeros k = 0 :: 0 :: (0 :: 0 :: zeros (k - 4)) := by
    conv_lhs => rw [show k = 4 + (k - 4) by omega]
    rw [zeros_add]
    rfl
  have h1 : D.drop q = u16le 0 ++ (0 :: 0 :: (zeros (k - 4) ++ rest2)) := by
    rw [hdrop, hz]
    rfl
  have e16 : BufReader.readU16 ⟨D, q⟩ = some (0, ⟨D, q + 2⟩) := by
    rw [readU16_at D q 0 _ h1]
  have h2 : D.drop (q + 2) = 0 :: (0 :: (zeros (k - 4) ++ rest2)) :=
    drop_shift D q 2 (u16le 0) _ h1 rfl
  have e8m : BufReader.readU8 ⟨D, q + 2⟩ = some (0, ⟨D, q + 2 + 1⟩) :=
    readU8_at D (q + 2) 0 _ h2
  have h3 : D.drop (q + 2 + 1) = 0 :: (zeros (k - 4) ++ rest2) :=
    drop_shift D (q + 2) 1 [0] _ h2 rfl
  have e8e : BufReader.readU8 ⟨D, q + 2 + 1⟩ = some (0, ⟨D, q + 2 + 1 + 1⟩) :=
    readU8_at D (q + 2 + 1) 0 _ h3
  have h4 : D.drop (q + 2 + 1 + 1) = zeros (k - 4) ++ rest2 :=
    drop_shift D (q + 2 + 1) 1 [0] _ h3 rfl
  obtain ⟨v, e32⟩ := readU32_any D (q + 2 + 1 + 1)
    (by rw [h4]; simp only [List.length_append, zeros_length]; omega)
  have hpos : q + 2 + 1 + 1 + 4 = q + 8 := by omega
  rw [hpos] at e32
  conv_lhs => unfold parseEntries
  rw [e16]
  simp only []
  rw [e8m]
  simp only []
  rw [e8e]
  simp only []
  rw [e32]
  simp only []
  simp

/-- Reading the synthetic cache-run trailer record consumes 8 bytes and
prepends the `cache_end` entry. -/
theorem parse_trailer (table : String → Option String) (fl mdl tex : Nat) (dn : String)
    (D : List Nat) (q v : Nat) (rest2 : List Nat)
    (hdrop : D.drop q = recordBytes { name := 0, mode := 99, ext := 255, value := v } ++ rest2)
    (hv : v < 4294967296) :
    parseEntries table (fl + 1) mdl tex dn ⟨D, q⟩
      = (parseEntries table fl mdl tex dn ⟨D, q + 8⟩).map
          (fun res => (("cache_end", 'c', v) :: res.1, res.2)) := by
  have h1 : D.drop q = u16le 0 ++ (99 :: (255 :: (u32le v ++ rest2))) := by
    rw [hdrop]
    simp [recordBytes, List.append_assoc]
  have e16 : BufReader.readU16 ⟨D, q⟩ = some (0, ⟨D, q + 2⟩) := by
    rw [readU16_at D q 0 _ h1]
  have h2 : D.drop (q + 2) = 99 :: (255 :: (u32le v ++ rest2)) :=
    drop_shift D q 2 (u16le 0) _ h1 rfl
  have e8m : BufReader.readU8 ⟨D, q + 2⟩ = some (99, ⟨D, q + 2 + 1⟩) :=
    readU8_at D (q + 2) 99 _ h2
  have h3 : D.drop (q + 2 + 1) = 255 :: (u32le v ++ rest2) :=
    drop_shift D (q + 2) 1 [99] _ h2 rfl
  have e8e : BufReader.readU8 ⟨D, q + 2 + 1⟩ = some (255, ⟨D, q + 2 + 1 + 1⟩) :=
    readU8_at D (q + 2 + 1) 255 _ h3
  have h4 : D.drop (q + 2 + 1 + 1) = u32le v ++ rest2 :=
    drop_shift D (q + 2 + 1) 1 [255] _ h3 rfl
  have e32 : BufReader.readU32 ⟨D, q + 2 + 1 + 1⟩ = some (v, ⟨D, q + 2 + 1 + 1 + 4⟩) := by
    rw [readU32_at D (q + 2 + 1 + 1) v _ h4, Nat.mod_eq_of_lt hv]
  have hpos : q + 2 + 1 + 1 + 4 = q + 8 := by omega
  rw [hpos] at e32
  have hc : Char.ofNat 99 = 'c' := by decide
  conv_lhs => unfold parseEntries
  rw [e16]
  simp only []
  rw [e8m]
  simp only []
  rw [e8e]
  simp only []
  rw [e32]
  simp only []
  simp [hc]

theorem resolve_file (table : String → Option String) (mdl tex : Nat) (dn : String)
    (f : StFile)
    (hsect : f.sect = 'r' ∨ f.sect = 'n' ∨ f.sect = 'c' ∨ f.sect = 's')
    (hbin : f.ext ≠ "bin")
    (hdar : f.ext = "dar" → f.sect ≠ 's')
    (hnamed : f.ext ≠ "dar" → strcode f.name ≠ 0 ∧ (table (keyOf f)).isSome ∧
      (table (keyOf f)).getD "" ≠ "cache_end")
    (hext2 : extTag f ≤ 122) :
    ((if (if f.ext = "dar" then 0 else strcode f.name) ≠ 0 then
        match table (hexKey (if f.ext = "dar" then 0 else strcode f.name) (extTag f)) with
        | some v => some (v, mdl, tex)
        | none => none
      else if extTag f ≠ 255 ∧ ((if f.ext = "bin" then 115 else f.sect.toNat) = 99
          ∨ (if f.ext = "bin" then 115 else f.sect.toNat) = 114) then
        some ((if (if f.ext = "bin" then 115 else f.sect.toNat) = 114 then "res" else dn)
          ++ "_mdl" ++ toString mdl ++ ".dar", mdl + 1, tex)
      else if extTag f ≠ 255 ∧ (if f.ext = "bin" then 115 else f.sect.toNat) = 110 then
        some ((if (if f.ext = "bin" then 115 else f.sect.toNat) = 114 then "res" else dn)
          ++ "_tex" ++ toString tex ++ ".dar", mdl, tex + 1)
      else some ("cache_end", mdl, tex) : Option (String × Nat × Nat))
      = some (nmOf table mdl tex (dnOf dn f) f, mdlOf mdl f, texOf tex f))
    ∧ (if (if f.ext = "bin" then 115 else f.sect.toNat) = 114 then "res" else dn)
        = dnOf dn f := by
  have hmodeEq : (if f.ext = "bin" then 115 else f.sect.toNat) = f.sect.toNat := if_neg hbin
  have hx255 : extTag f ≠ 255 := by omega
  have hdn2 : (if (if f.ext = "bin" then 115 else f.sect.toNat) = 114 then "res" else dn)
      = dnOf dn f := by
    rw [hmodeEq]
    unfold dnOf
    rcases hsect with hs | hs | hs | hs <;> rw [hs] <;> simp
  refine ⟨?_, hdn2⟩
  rw [hdn2]
  by_cases hde : f.ext = "dar"
  · have hname0 : (if f.ext = "dar" then 0 else strcode f.name) = 0 := if_pos hde
    rw [hmodeEq, hname0]
    rw [if_neg (by simp)]
    rcases hsect with hs | hs | hs | hs
    · rw [hs]
      rw [if_pos ⟨hx255, Or.inr (by decide)⟩]
      simp [nmOf, mdlOf, texOf, hde, hs]
    · rw [hs]
      rw [if_neg (fun hcon => by rcases hcon.2 with h | h <;> exact absurd h (by decide)),
        if_pos ⟨hx255, by decide⟩]
      simp [nmOf, mdlOf, texOf, hde, hs]
    · rw [hs]
      rw [if_pos ⟨hx255, Or.inl (by decide)⟩]
      simp [nmOf, mdlOf, texOf, hde, hs]
    · exact absurd hs (hdar hde)
  · obtain ⟨hnz, hsome, hne⟩ := hnamed hde
    obtain ⟨v, hv⟩ := Option.isSome_iff_exists.mp hsome
    rw [if_neg hde]
    rw [if_pos hnz]
    rw [show hexKey (strcode f.name) (extTag f) = keyOf f from rfl, hv]
    simp [nmOf, mdlOf, texOf, hde, hv]

theorem char_ofNat_sect (c : Char) (h : c = 'r' ∨ c = 'n' ∨ c = 'c' ∨ c = 's') :
    Char.ofNat c.toNat = c := by
  rcases h with h | h | h | h <;> rw [h] <;> decide

theorem sect_toNat_mem (c : Char) (h : c = 'r' ∨ c = 'n' ∨ c = 'c' ∨ c = 's') :
    c.toNat = 99 ∨ c.toNat = 110 ∨ c.toNat = 114 ∨ c.toNat = 115 := by
  rcases h with h | h | h | h <;> rw [h] <;> decide

/-- The record loop, run on the bytes `pack_stage` emits for `files` (followed
by at least 4 bytes of zero padding and enough data for the final 8-byte
read), terminates at the padding and resolves exactly the mirrored entry list. -/
theorem parse_packed (files : List StFile) : ∀ (table : String → Option String)
    (inC : Bool) (cs mdl tex : Nat) (dn : String) (D : List Nat) (q k : Nat)
    (rest2 : List Nat) (fl : Nat),
    D.drop q = recordsBytes (packRecordsAux inC cs files) ++ (zeros k ++ rest2) →
    4 ≤ k → 8 ≤ k + rest2.length →
    2 * files.length + 1 ≤ fl →
    (∀ f ∈ files, GoodFile table f) →
    (inC = true → nextIsC files = true) →
    cs + sizeSum files < 4294967296 →
    parseEntries table fl mdl tex dn ⟨D, q⟩
      = some (entriesOfAux table inC cs mdl tex dn files,
              ⟨D, q + (8 * (packRecordsAux inC cs files).length + 8)⟩) := by
  induction files with
  | nil =>
    intro table inC cs mdl tex dn D q k rest2 fl hdrop hk hlen hfl hgood hin hcs
    obtain ⟨fl2, rfl⟩ : ∃ fl2, fl = fl2 + 1 := ⟨fl - 1, by omega⟩
    rw [parse_term table fl2 mdl tex dn D q k rest2 (by simpa using hdrop) hk hlen]
    simp [entriesOfAux, packRecordsAux]
  | cons f rest ih =>
    intro table inC cs mdl tex dn D q k rest2 fl hdrop hk hlen hfl hgood hin hcs
    obtain ⟨fl2, rfl⟩ : ∃ fl2, fl = fl2 + 1 := ⟨fl - 1, by omega⟩
    have hgf := hgood f (List.mem_cons_self f rest)
    obtain ⟨hsect0, hbin, hdar, hnamed, hext1, hext2⟩ := hgf
    have hsect : f.sect = 'r' ∨ f.sect = 'n' ∨ f.sect = 'c' ∨ f.sect = 's' := by
      simpa using hsect0
    have hgr : ∀ g ∈ rest, GoodFile table g := fun g hg => hgood g (List.mem_cons_of_mem f hg)
    have hmodeEq : (if f.ext = "bin" then 115 else f.sect.toNat) = f.sect.toNat := if_neg hbin
    have hsv := sect_toNat_mem f.sect hsect
    have hchar := char_ofNat_sect f.sect hsect
    have hres := resolve_file table mdl tex dn f hsect hbin hdar hnamed hext2
    have hnameb : (if f.ext = "dar" then 0 else strcode f.name) < 65536 := by
      split
      · norm_num
      · exact strcode_lt f.name
    have hmodeb : (if f.ext = "bin" then 115 else f.sect.toNat) < 256 := by
      rw [hmodeEq]; omega
    have hmode0 : (if f.ext = "bin" then 115 else f.sect.toNat) ≠ 0 := by
      rw [hmodeEq]; omega
    have hcond1 : (if f.ext = "bin" then 115 else f.sect.toNat) = 99
        ∨ (if f.ext = "bin" then 115 else f.sect.toNat) = 110
        ∨ (if f.ext = "bin" then 115 else f.sect.toNat) = 114
        ∨ (if f.ext = "bin" then 115 else f.sect.toNat) = 115 := by
      rw [hmodeEq]; exact hsv
    have hextb : extTag f < 256 := by omega
    by_cases hC2 : (inC || (f.sect == 'c')) = true
    · by_cases hnr : nextIsC rest = true
      · -- mid cache run
        have hrecs := packRecordsAux_cons_run_mid inC cs f rest hC2 hnr
        rw [hrecs] at hdrop ⊢
        rw [recordsBytes_cons, List.append_assoc] at hdrop
        have hdrop8 : D.drop (q + 8)
            = recordsBytes (packRecordsAux true (cs + f.size) rest) ++ (zeros k ++ rest2) :=
          drop_shift D q 8 _ _ hdrop (recordBytes_length _)
        have hihr := ih table true (cs + f.size) (mdlOf mdl f) (texOf tex f) (dnOf dn f)
          D (q + 8) k rest2 fl2 hdrop8 hk hlen
          (by simp only [List.length_cons] at hfl; omega) hgr (fun _ => hnr)
          (by rw [sizeSum_cons] at hcs; omega)
        rw [parse_step table fl2 mdl tex dn D q _ _ hdrop hnameb hmodeb hextb
          (show cs < 4294967296 by rw [sizeSum_cons] at hcs; omega) hmode0]
        simp only []
        rw [if_pos hcond1, if_pos (Or.inl ⟨hext1, hext2⟩)]
        rw [hres.1]
        simp only []
        rw [hres.2, hihr]
        rw [entriesOfAux_cons_mid table inC cs mdl tex dn f rest hC2 hnr]
        simp only [Option.map_some', Option.some.injEq, Prod.mk.injEq, List.cons.injEq,
          BufReader.mk.injEq, List.length_cons, hmodeEq, hchar, eq_self_iff_true,
          true_and, and_true]
        omega
      · -- end of a cache run: member record then trailer record
        have hnrf : nextIsC rest = false := by simpa using hnr
        have hrecs := packRecordsAux_cons_run_end inC cs f rest hC2 hnrf
        rw [hrecs] at hdrop ⊢
        rw [recordsBytes_cons, recordsBytes_cons, List.append_assoc, List.append_assoc]
          at hdrop
        have hdrop8 : D.drop (q + 8)
            = recordBytes { name := 0, mode := 99, ext := 255, value := cs + f.size }
              ++ (recordsBytes (packRecordsAux false (cs + f.size) rest)
                ++ (zeros k ++ rest2)) :=
          drop_shift D q 8 _ _ hdrop (recordBytes_length _)
        have hdrop16 : D.drop (q + 8 + 8)
            = recordsBytes (packRecordsAux false (cs + f.size) rest) ++ (zeros k ++ rest2) :=
          drop_shift D (q + 8) 8 _ _ hdrop8 (recordBytes_length _)
        obtain ⟨fl3, rfl⟩ : ∃ fl3, fl2 = fl3 + 1 := by
          refine ⟨fl2 - 1, ?_⟩
          simp only [List.length_cons] at hfl
          omega
        have hihr := ih table false (cs + f.size) (mdlOf mdl f) (texOf tex f) (dnOf dn f)
          D (q + 8 + 8) k rest2 fl3 hdrop16 hk hlen
          (by simp only [List.length_cons] at hfl; omega) hgr
          (by intro hcon; cases hcon) (by rw [sizeSum_cons] at hcs; omega)
        have htrail := parse_trailer table fl3 (mdlOf mdl f) (texOf tex f) (dnOf dn f)
          D (q + 8) (cs + f.size) _ hdrop8
          (show cs + f.size < 4294967296 by rw [sizeSum_cons] at hcs; omega)
        rw [parse_step table (fl3 + 1) mdl tex dn D q _ _ hdrop hnameb hmodeb hextb
          (show cs < 4294967296 by rw [sizeSum_cons] at hcs; omega) hmode0]
        simp only []
        rw [if_pos hcond1, if_pos (Or.inl ⟨hext1, hext2⟩)]
        rw [hres.1]
        simp only []
        rw [hres.2, htrail, hihr]
        rw [entriesOfAux_cons_end table inC cs mdl tex dn f rest hC2 hnrf]
        simp only [Option.map_some', Option.some.injEq, Prod.mk.injEq, List.cons.injEq,
          BufReader.mk.injEq, List.length_cons, hmodeEq, hchar, eq_self_iff_true,
          true_and, and_true]
        omega
    · -- outside any cache run
      have hC2f : (inC || (f.sect == 'c')) = false := by simpa using hC2
      have hrecs := packRecordsAux_cons_plain inC cs f rest hC2f
      rw [hrecs] at hdrop ⊢
      simp only [plainRecord] at hdrop ⊢
      rw [recordsBytes_cons, List.append_assoc] at hdrop
      have hdrop8 : D.drop (q + 8)
          = recordsBytes (packRecordsAux false cs rest) ++ (zeros k ++ rest2) :=
        drop_shift D q 8 _ _ hdrop (recordBytes_length _)
      have hihr := ih table false cs (mdlOf mdl f) (texOf tex f) (dnOf dn f)
        D (q + 8) k rest2 fl2 hdrop8 hk hlen
        (by simp only [List.length_cons] at hfl; omega) hgr
        (by intro hcon; cases hcon) (by rw [sizeSum_cons] at hcs; omega)
      rw [parse_step table fl2 mdl tex dn D q _ _ hdrop
        (by show (if f.ext = "dar" then 0 else strcode f.name) < 65536; exact hnameb)
        (by show (if f.ext = "bin" then 115 else f.sect.toNat) < 256; exact hmodeb)
        (by show extTag f < 256; exact hextb)
        (by show f.size < 4294967296; rw [sizeSum_cons] at hcs; omega)
        (by show (if f.ext = "bin" then 115 else f.sect.toNat) ≠ 0; exact hmode0)]
      simp only []
      rw [if_pos hcond1, if_pos (Or.inl ⟨hext1, hext2⟩)]
      rw [hres.1]
      simp only []
      rw [hres.2, hihr]
      rw [entriesOfAux_cons_plain table inC cs mdl tex dn f rest hC2f]
      simp only [Option.map_some', Option.some.injEq, Prod.mk.injEq, List.cons.injEq,
        BufReader.mk.injEq, List.length_cons, hmodeEq, hchar, eq_self_iff_true,
        true_and, and_true]
      omega

/-! ## Extraction of the payload -/

theorem read_exact (D : List Nat) (u : Nat) (c X : List Nat) (h : D.drop u = c ++ X) :
    BufReader.read ⟨D, u⟩ c.length = (c, ⟨D, u + c.length⟩) := by
  unfold BufReader.read
  simp only [reader_data_mk, reader_pos_mk]
  rw [h, List.take_left c X]

theorem reader_align_exact (D : List Nat) (u : Nat) (X : List Nat)
    (h : D.drop u = zeros (alignUp 2048 u - u) ++ X) :
    BufReader.align ⟨D, u⟩ 2048 = ⟨D, alignUp 2048 u⟩ := by
  unfold BufReader.align BufReader.read
  simp only [reader_data_mk, reader_pos_mk]
  rw [h, List.take_left' (zeros_length _)]
  simp only [zeros_length, BufReader.mk.injEq, true_and]
  have := alignUp_ge u
  omega

/-- The extracted file list the extraction loop recovers from a packed stage:
per file its resolved name, its section character and its exact content. -/
def outsOfAux (table : String → Option String) : Nat → Nat → String → List StFile →
    List (String × Char × List Nat)
  | _, _, _, [] => []
  | mdl, tex, dn, f :: rest =>
    (nmOf table mdl tex (dnOf dn f) f, f.sect, f.content)
      :: outsOfAux table (mdlOf mdl f) (texOf tex f) (dnOf dn f) rest

theorem outsOfAux_contents (table : String → Option String) (files : List StFile) :
    ∀ (mdl tex : Nat) (dn : String),
    (outsOfAux table mdl tex dn files).map (fun o => o.2.2) = files.map StFile.content := by
  induction files with
  | nil => intro mdl tex dn; rfl
  | cons f rest ih =>
    intro mdl tex dn
    simp only [outsOfAux, List.map_cons, List.cons.injEq]
    exact ⟨trivial, ih _ _ _⟩

theorem outsOfAux_sects (table : String → Option String) (files : List StFile) :
    ∀ (mdl tex : Nat) (dn : String),
    (outsOfAux table mdl tex dn files).map (fun o => o.2.1) = files.map StFile.sect := by
  induction files with
  | nil => intro mdl tex dn; rfl
  | cons f rest ih =>
    intro mdl tex dn
    simp only [outsOfAux, List.map_cons, List.cons.injEq]
    exact ⟨trivial, ih _ _ _⟩

theorem head_ne_cache_end (t : String) (c : Char) (h : t.data.head? = some c)
    (hc : c ≠ 'c') : t ≠ "cache_end" := by
  intro hcon
  rw [hcon] at h
  exact hc (by injection h with h1; exact h1.symm)

theorem dar_name_ne_cache_end (dn2 mid : String) (n : Nat)
    (hdn : dn2 = "stg" ∨ dn2 = "res") :
    dn2 ++ mid ++ toString n ++ ".dar" ≠ "cache_end" := by
  rcases hdn with h | h <;> subst h
  · exact head_ne_cache_end _ 's' rfl (by decide)
  · exact head_ne_cache_end _ 'r' rfl (by decide)

theorem nmOf_ne_cache_end (table : String → Option String) (mdl tex : Nat) (dn2 : String)
    (f : StFile) (hdn : dn2 = "stg" ∨ dn2 = "res")
    (hnamed : f.ext ≠ "dar" → strcode f.name ≠ 0 ∧ (table (keyOf f)).isSome = true ∧
      (table (keyOf f)).getD "" ≠ "cache_end") :
    nmOf table mdl tex dn2 f ≠ "cache_end" := by
  unfold nmOf
  by_cases hd : f.ext = "dar"
  · rw [if_pos hd]
    split
    · exact dar_name_ne_cache_end dn2 "_tex" tex hdn
    · exact dar_name_ne_cache_end dn2 "_mdl" mdl hdn
  · rw [if_neg hd]
    exact (hnamed hd).2.2

theorem dnOf_mem (dn : String) (f : StFile) (h : dn = "stg" ∨ dn = "res") :
    dnOf dn f = "stg" ∨ dnOf dn f = "res" := by
  unfold dnOf
  split
  · exact Or.inr rfl
  · exact h

theorem entriesOfAux_cons_inC (table : String → Option String) (cs mdl tex : Nat)
    (dn : String) (g : StFile) (grest : List StFile) :
    ∃ tl, entriesOfAux table true cs mdl tex dn (g :: grest)
      = (nmOf table mdl tex (dnOf dn g) g, g.sect, cs) :: tl := by
  by_cases hn : nextIsC grest = true
  · exact ⟨_, entriesOfAux_cons_mid table true cs mdl tex dn g grest (by simp) hn⟩
  · exact ⟨_, entriesOfAux_cons_end table true cs mdl tex dn g grest (by simp)
      (by simpa using hn)⟩

theorem payloadAux_cons_plain (u : Nat) (f : StFile) (rest : List StFile)
    (h : f.sect ≠ 'c') :
    payloadAux u (f :: rest)
      = f.content ++ (zeros (alignUp 2048 (u + f.size) - (u + f.size))
        ++ payloadAux (alignUp 2048 (u + f.size)) rest) := by
  simp [payloadAux, h, StFile.size]

theorem payloadAux_cons_mid (u : Nat) (f : StFile) (rest : List StFile)
    (h : f.sect = 'c') (hn : nextIsC rest = true) :
    payloadAux u (f :: rest) = f.content ++ payloadAux (u + f.size) rest := by
  simp [payloadAux, h, hn, StFile.size]

theorem payloadAux_cons_end (u : Nat) (f : StFile) (rest : List StFile)
    (h : f.sect = 'c') (hn : nextIsC rest = false) :
    payloadAux u (f :: rest)
      = f.content ++ (zeros (alignUp 2048 (u + f.size) - (u + f.size))
        ++ payloadAux (alignUp 2048 (u + f.size)) rest) := by
  simp [payloadAux, h, hn, StFile.size]

theorem extractFiles_cons_skip (md : Char) (v : Nat)
    (tail : List (String × Char × Nat)) (b : BufReader) :
    extractFiles (("cache_end", md, v) :: tail) b = extractFiles tail (b.align 2048) := by
  simp [extractFiles]

theorem extractFiles_cons_plain (nm : String) (md : Char) (v : Nat)
    (tail : List (String × Char × Nat)) (b : BufReader)
    (hnm : nm ≠ "cache_end") (hmd : md ≠ 'c') :
    extractFiles ((nm, md, v) :: tail) b
      = (extractFiles tail ((b.read v).2.align 2048)).map
          (fun r => ((nm, md, (b.read v).1) :: r.1, r.2)) := by
  simp [extractFiles, hnm, hmd]

theorem extractFiles_cons_cache (nm : String) (v : Nat) (n2 : String) (m2 : Char)
    (v2 : Nat) (tail : List (String × Char × Nat)) (b : BufReader)
    (hnm : nm ≠ "cache_end") :
    extractFiles ((nm, 'c', v) :: (n2, m2, v2) :: tail) b
      = (extractFiles ((n2, m2, v2) :: tail) (b.read (v2 - v)).2).map
          (fun r => ((nm, 'c', (b.read (v2 - v)).1) :: r.1, r.2)) := by
  simp [extractFiles, hnm]

/-- The extraction loop, run on the entries mirrored from `pack_stage`'s
records with the reader at the start of the packed payload, recovers every
file's exact content and section and stops at the payload's end. -/
theorem extract_packed (files : List StFile) : ∀ (table : String → Option String)
    (inC : Bool) (cs mdl tex : Nat) (dn : String) (D : List Nat) (u : Nat)
    (suffix : List Nat),
    D.drop u = payloadAux u files ++ suffix →
    (inC = false → u % 2048 = 0) →
    (inC = true → nextIsC files = true) →
    (dn = "stg" ∨ dn = "res") →
    (∀ f ∈ files, GoodFile table f) →
    extractFiles (entriesOfAux table inC cs mdl tex dn files) ⟨D, u⟩
      = some (outsOfAux table mdl tex dn files,
              ⟨D, u + (payloadAux u files).length⟩) := by
  induction files with
  | nil =>
    intro table inC cs mdl tex dn D u suffix hdrop halign hin hdn hgood
    simp [entriesOfAux, extractFiles, outsOfAux, payloadAux]
  | cons f rest ih =>
    intro table inC cs mdl tex dn D u suffix hdrop halign hin hdn hgood
    obtain ⟨hsect0, hbin, hdar, hnamed, hext1, hext2⟩ := hgood f (List.mem_cons_self f rest)
    have hgr : ∀ g ∈ rest, GoodFile table g := fun g hg => hgood g (List.mem_cons_of_mem f hg)
    have hdn2 := dnOf_mem dn f hdn
    have hnm := nmOf_ne_cache_end table mdl tex (dnOf dn f) f hdn2 hnamed
    by_cases hC2 : (inC || (f.sect == 'c')) = true
    · have hsc : f.sect = 'c' := by
        cases hI : inC
        · rw [hI] at hC2; simpa using hC2
        · have := hin hI; simpa [nextIsC] using this
      by_cases hnr : nextIsC rest = true
      · -- mid cache run
        obtain ⟨g, grest, rfl⟩ : ∃ g grest, rest = g :: grest := by
          cases rest with
          | nil => simp [nextIsC] at hnr
          | cons g grest => exact ⟨g, grest, rfl⟩
        rw [entriesOfAux_cons_mid table inC cs mdl tex dn f _ hC2 hnr]
        obtain ⟨tl, htl⟩ := entriesOfAux_cons_inC table (cs + f.size) (mdlOf mdl f)
          (texOf tex f) (dnOf dn f) g grest
        rw [htl, hsc]
        rw [payloadAux_cons_mid u f _ hsc hnr] at hdrop ⊢
        have hdrop8 : D.drop (u + f.size)
            = payloadAux (u + f.size) (g :: grest) ++ suffix :=
          drop_shift D u f.size f.content _ (by rw [hdrop, List.append_assoc]) rfl
        rw [extractFiles_cons_cache _ cs _ g.sect (cs + f.size) tl ⟨D, u⟩ hnm]
        rw [show cs + f.size - cs = f.size by omega]
        have hread : BufReader.read ⟨D, u⟩ f.size
            = (f.content, ⟨D, u + f.size⟩) := by
          have := read_exact D u f.content (payloadAux (u + f.size) (g :: grest) ++ suffix)
            (by rw [hdrop, List.append_assoc])
          simpa [StFile.size] using this
        rw [hread, ← htl]
        rw [ih table true (cs + f.size) (mdlOf mdl f) (texOf tex f) (dnOf dn f)
          D (u + f.size) suffix hdrop8 (fun h => nomatch h) (fun _ => hnr) hdn2 hgr]
        simp only [outsOfAux, Option.map_some', Option.some.injEq, Prod.mk.injEq,
          List.cons.injEq, BufReader.mk.injEq, List.length_append, hsc,
          eq_self_iff_true, true_and, and_true]
        have hfs : f.size = f.content.length := rfl
        omega
      · -- end of a cache run
        have hnrf : nextIsC rest = false := by simpa using hnr
        rw [entriesOfAux_cons_end table inC cs mdl tex dn f rest hC2 hnrf]
        rw [hsc]
        rw [payloadAux_cons_end u f rest hsc hnrf] at hdrop ⊢
        have hdropc : D.drop (u + f.size)
            = zeros (alignUp 2048 (u + f.size) - (u + f.size))
              ++ (payloadAux (alignUp 2048 (u + f.size)) rest ++ suffix) :=
          drop_shift D u f.size f.content _
            (by rw [hdrop]; simp [List.append_assoc]) rfl
        have hdropa : D.drop (alignUp 2048 (u + f.size))
            = payloadAux (alignUp 2048 (u + f.size)) rest ++ suffix := by
          have := drop_shift D (u + f.size)
            (alignUp 2048 (u + f.size) - (u + f.size))
            (zeros (alignUp 2048 (u + f.size) - (u + f.size)))
            (payloadAux (alignUp 2048 (u + f.size)) rest ++ suffix) hdropc (zeros_length _)
          rwa [show u + f.size + (alignUp 2048 (u + f.size) - (u + f.size))
            = alignUp 2048 (u + f.size) by have := alignUp_ge (u + f.size); omega] at this
        rw [extractFiles_cons_cache _ cs _ 'c' (cs + f.size) _ ⟨D, u⟩ hnm]
        rw [show cs + f.size - cs = f.size by omega]
        have hread : BufReader.read ⟨D, u⟩ f.size
            = (f.content, ⟨D, u + f.size⟩) := by
          have := read_exact D u f.content
            (zeros (alignUp 2048 (u + f.size) - (u + f.size))
              ++ (payloadAux (alignUp 2048 (u + f.size)) rest ++ suffix))
            (by rw [hdrop]; simp [List.append_assoc])
          simpa [StFile.size] using this
        rw [hread]
        rw [extractFiles_cons_skip 'c' (cs + f.size) _ ⟨D, u + f.size⟩]
        rw [show BufReader.align ⟨D, u + f.size⟩ 2048
            = ⟨D, alignUp 2048 (u + f.size)⟩ from reader_align_exact D (u + f.size) _ hdropc]
        rw [ih table false (cs + f.size) (mdlOf mdl f) (texOf tex f) (dnOf dn f)
          D (alignUp 2048 (u + f.size)) suffix hdropa (fun _ => alignUp_mod _)
          (fun h => nomatch h) hdn2 hgr]
        simp only [outsOfAux, Option.map_some', Option.some.injEq, Prod.mk.injEq,
          List.cons.injEq, BufReader.mk.injEq, List.length_append, zeros_length, hsc,
          eq_self_iff_true, true_and, and_true]
        have := alignUp_ge (u + f.size)
        have hfs : f.size = f.content.length := rfl
        omega
    · -- outside any cache run
      have hC2f : (inC || (f.sect == 'c')) = false := by simpa using hC2
      have hIf : inC = false := by
        cases hI : inC
        · rfl
        · rw [hI] at hC2f; simp at hC2f
      have hsne : f.sect ≠ 'c' := by
        rw [hIf] at hC2f; simpa using hC2f
      rw [entriesOfAux_cons_plain table inC cs mdl tex dn f rest hC2f]
      rw [payloadAux_cons_plain u f rest hsne] at hdrop ⊢
      have hdropc : D.drop (u + f.size)
          = zeros (alignUp 2048 (u + f.size) - (u + f.size))
            ++ (payloadAux (alignUp 2048 (u + f.size)) rest ++ suffix) :=
        drop_shift D u f.size f.content _
          (by rw [hdrop]; simp [List.append_assoc]) rfl
      have hdropa : D.drop (alignUp 2048 (u + f.size))
          = payloadAux (alignUp 2048 (u + f.size)) rest ++ suffix := by
        have := drop_shift D (u + f.size)
          (alignUp 2048 (u + f.size) - (u + f.size))
          (zeros (alignUp 2048 (u + f.size) - (u + f.size)))
          (payloadAux (alignUp 2048 (u + f.size)) rest ++ suffix) hdropc (zeros_length _)
        rwa [show u + f.size + (alignUp 2048 (u + f.size) - (u + f.size))
          = alignUp 2048 (u + f.size) by have := alignUp_ge (u + f.size); omega] at this
      rw [extractFiles_cons_plain _ f.sect f.size _ ⟨D, u⟩ hnm hsne]
      have hread : BufReader.read ⟨D, u⟩ f.size
          = (f.content, ⟨D, u + f.size⟩) := by
        have := read_exact D u f.content
          (zeros (alignUp 2048 (u + f.size) - (u + f.size))
            ++ (payloadAux (alignUp 2048 (u + f.size)) rest ++ suffix))
          (by rw [hdrop]; simp [List.append_assoc])
        simpa [StFile.size] using this
      rw [hread]
      rw [show BufReader.align (f.content, (⟨D, u + f.size⟩ : BufReader)).2 2048
          = ⟨D, alignUp 2048 (u + f.size)⟩ from reader_align_exact D (u + f.size) _ hdropc]
      rw [ih table false cs (mdlOf mdl f) (texOf tex f) (dnOf dn f)
        D (alignUp 2048 (u + f.size)) suffix hdropa (fun _ => alignUp_mod _)
        (fun h => nomatch h) hdn2 hgr]
      simp only [outsOfAux, Option.map_some', Option.some.injEq, Prod.mk.injEq,
        List.cons.injEq, BufReader.mk.injEq, List.length_append, zeros_length,
        eq_self_iff_true, true_and, and_true]
      have := alignUp_ge (u + f.size)
      have hfs : f.size = f.content.length := rfl
      omega

/-! ## Composing the unpack of a packed stage -/

theorem isSome_map {α β : Type} (o : Option α) (g : α → β) :
    (o.map g).isSome = o.isSome := by
  cases o <;> rfl

/-- The regenerated config never fails on the entries of a packed stage: every
entry's mode is one of `cnrs`. -/
theorem wsc_aux_isSome (files : List StFile) : ∀ (table : String → Option String)
    (inC : Bool) (cs mdl tex : Nat) (dn : String) (sect : Option Char),
    (∀ f ∈ files, f.sect = 'c' ∨ f.sect = 'n' ∨ f.sect = 'r' ∨ f.sect = 's') →
    (write_stage_config_aux sect (entriesOfAux table inC cs mdl tex dn files)).isSome
      = true := by
  induction files with
  | nil =>
    intro table inC cs mdl tex dn sect hs
    rfl
  | cons f rest ih =>
    intro table inC cs mdl tex dn sect hs
    have hmode := hs f (List.mem_cons_self f rest)
    have hsr : ∀ g ∈ rest, g.sect = 'c' ∨ g.sect = 'n' ∨ g.sect = 'r' ∨ g.sect = 's' :=
      fun g hg => hs g (List.mem_cons_of_mem f hg)
    by_cases hC2 : (inC || (f.sect == 'c')) = true
    · by_cases hnr : nextIsC rest = true
      · rw [entriesOfAux_cons_mid table inC cs mdl tex dn f rest hC2 hnr]
        simp only [write_stage_config_aux]
        rw [if_pos hmode]
        by_cases hne : nmOf table mdl tex (dnOf dn f) f = "cache_end"
        · rw [if_pos hne]
          exact ih table true (cs + f.size) _ _ _ _ hsr
        · rw [if_neg hne]
          split
          · rw [isSome_map]
            exact ih table true (cs + f.size) _ _ _ _ hsr
          · rw [isSome_map]
            exact ih table true (cs + f.size) _ _ _ _ hsr
      · have hnrf : nextIsC rest = false := by simpa using hnr
        rw [entriesOfAux_cons_end table inC cs mdl tex dn f rest hC2 hnrf]
        simp only [write_stage_config_aux]
        rw [if_pos hmode]
        have hstep : ∀ (s2 : Option Char),
            (write_stage_config_aux s2 (("cache_end", 'c', cs + f.size)
              :: entriesOfAux table false (cs + f.size) (mdlOf mdl f) (texOf tex f)
                (dnOf dn f) rest)).isSome = true := by
          intro s2
          simp only [write_stage_config_aux]
          rw [if_pos (Or.inl trivial), if_pos trivial]
          exact ih table false (cs + f.size) _ _ _ _ hsr
        by_cases hne : nmOf table mdl tex (dnOf dn f) f = "cache_end"
        · rw [if_pos hne]
          exact hstep sect
        · rw [if_neg hne]
          split
          · rw [isSome_map]
            exact hstep _
          · rw [isSome_map]
            exact hstep _
    · have hC2f : (inC || (f.sect == 'c')) = false := by simpa using hC2
      rw [entriesOfAux_cons_plain table inC cs mdl tex dn f rest hC2f]
      simp only [write_stage_config_aux]
      rw [if_pos hmode]
      by_cases hne : nmOf table mdl tex (dnOf dn f) f = "cache_end"
      · rw [if_pos hne]
        exact ih table false cs _ _ _ _ hsr
      · rw [if_neg hne]
        split
        · rw [isSome_map]
          exact ih table false cs _ _ _ _ hsr
        · rw [isSome_map]
          exact ih table false cs _ _ _ _ hsr

theorem packRecordsAux_length_ge (files : List StFile) : ∀ (inC : Bool) (cs : Nat),
    files.length ≤ (packRecordsAux inC cs files).length := by
  induction files with
  | nil => intro inC cs; simp [packRecordsAux]
  | cons f rest ih =>
    intro inC cs
    by_cases hC2 : (inC || (f.sect == 'c')) = true
    · by_cases hnr : nextIsC rest = true
      · rw [packRecordsAux_cons_run_mid inC cs f rest hC2 hnr]
        simp only [List.length_cons]
        exact Nat.succ_le_succ (ih _ _)
      · rw [packRecordsAux_cons_run_end inC cs f rest hC2 (by simpa using hnr)]
        simp only [List.length_cons]
        have := ih false (cs + f.size)
        omega
    · rw [packRecordsAux_cons_plain inC cs f rest (by simpa using hC2)]
      simp only [List.length_cons]
      exact Nat.succ_le_succ (ih false cs)

theorem hdrVal_one (files : List StFile) (h : files.length ≤ 255) : hdrVal files = 1 := by
  unfold hdrVal alignUp
  omega

theorem recsA_eq_2048 (files : List StFile) (hm : (packRecords files).length ≤ 254) :
    recsA files = 2048 := by
  unfold recsA alignUp
  omega

theorem stage_drop0 (files : List StFile) (pre suffix : List Nat) (start : Nat)
    (hpre : pre.length = start) :
    (pre ++ (stageBytes files ++ suffix)).drop start
      = u16le (hdrVal files)
        ++ (u16le (stageSize files / 2048)
        ++ (recordsBytes (packRecords files)
        ++ (zeros (recsA files - (4 + 8 * (packRecords files).length))
        ++ (payloadAux 0 files ++ suffix)))) := by
  have h0 : (pre ++ (stageBytes files ++ suffix)).drop start = stageBytes files ++ suffix := by
    rw [← hpre]
    exact List.drop_left pre _
  rw [h0]
  simp [stageBytes, List.append_assoc]

theorem stage_drop4 (files : List StFile) (pre suffix : List Nat) (start : Nat)
    (hpre : pre.length = start) :
    (pre ++ (stageBytes files ++ suffix)).drop (start + 4)
      = recordsBytes (packRecords files)
        ++ (zeros (recsA files - (4 + 8 * (packRecords files).length))
        ++ (payloadAux 0 files ++ suffix)) := by
  have h1 := stage_drop0 files pre suffix start hpre
  have h2 : (pre ++ (stageBytes files ++ suffix)).drop start
      = (u16le (hdrVal files) ++ u16le (stageSize files / 2048))
        ++ (recordsBytes (packRecords files)
        ++ (zeros (recsA files - (4 + 8 * (packRecords files).length))
        ++ (payloadAux 0 files ++ suffix))) := by
    rw [h1]
    simp [List.append_assoc]
  exact drop_shift _ start 4 _ _ h2 (by simp [u16le_length])

/-- The record loop of `unpack_stage`, run at offset 4 of a packed stage,
returns the mirrored entry list and stops 8 bytes past the emitted records
(on the terminator found in the alignment padding). -/
theorem parse_stageBytes (table : String → Option String) (files : List StFile)
    (pre suffix : List Nat) (start fl : Nat)
    (hpre : pre.length = start)
    (hgood : ∀ f ∈ files, GoodFile table f)
    (hm : (packRecords files).length ≤ 254)
    (hcs : sizeSum files < 4294967296)
    (hfl : 2 * files.length + 1 ≤ fl) :
    parseEntries table fl 1 1 "stg" ⟨pre ++ (stageBytes files ++ suffix), start + 4⟩
      = some (entriesOfAux table false 0 1 1 "stg" files,
          ⟨pre ++ (stageBytes files ++ suffix),
           start + 4 + (8 * (packRecords files).length + 8)⟩) := by
  have hk : recsA files = 2048 := recsA_eq_2048 files hm
  have hpp := parse_packed files table false 0 1 1 "stg"
    (pre ++ (stageBytes files ++ suffix)) (start + 4)
    (recsA files - (4 + 8 * (packRecords files).length))
    (payloadAux 0 files ++ suffix) fl
    (stage_drop4 files pre suffix start hpre)
    (by omega) (by omega) hfl hgood (fun h => nomatch h) (by simpa using hcs)
  rw [show packRecordsAux false 0 files = packRecords files from rfl] at hpp
  exact hpp

/-- Unpacking a stage laid out by `pack_stage` at a sector-aligned start
succeeds and recovers the mirrored entries, no header warning, a regenerated
config, and every file's exact content and section. -/
theorem unpack_stageBytes (table : String → Option String) (files : List StFile)
    (pre suffix : List Nat) (start : Nat)
    (hpre : pre.length = start) (hstart : start % 2048 = 0)
    (hgood : ∀ f ∈ files, GoodFile table f)
    (hm : (packRecords files).length ≤ 254)
    (hcs : sizeSum files < 4294967296) :
    ∃ cfg, unpack_stage table ⟨pre ++ (stageBytes files ++ suffix), start⟩
      = some ⟨entriesOfAux table false 0 1 1 "stg" files, false, cfg,
              outsOfAux table 1 1 "stg" files,
              ⟨pre ++ (stageBytes files ++ suffix),
               start + 2048 + (payloadAux 0 files).length⟩⟩ := by
  set D := pre ++ (stageBytes files ++ suffix) with hD
  have hn255 : files.length ≤ 255 := by
    have h1 := packRecordsAux_length_ge files false 0
    have h2 : (packRecordsAux false 0 files).length = (packRecords files).length := rfl
    omega
  have hv1 : hdrVal files = 1 := hdrVal_one files hn255
  have h0 := stage_drop0 files pre suffix start hpre
  rw [hv1] at h0
  have e16a : BufReader.readU16 ⟨D, start⟩ = some (1, ⟨D, start + 2⟩) := by
    have := readU16_at D start 1 _ h0
    simpa using this
  have h2 : D.drop (start + 2)
      = u16le (stageSize files / 2048)
        ++ (recordsBytes (packRecords files)
        ++ (zeros (recsA files - (4 + 8 * (packRecords files).length))
        ++ (payloadAux 0 files ++ suffix))) :=
    drop_shift D start 2 _ _ h0 (u16le_length _)
  have e16b : BufReader.readU16 ⟨D, start + 2⟩
      = some (stageSize files / 2048 % 65536, ⟨D, start + 2 + 2⟩) :=
    readU16_at D (start + 2) _ _ h2
  have hfl : 2 * files.length + 1 ≤ D.length + 1 := by
    have hlen1 : 4 + 8 * (packRecords files).length ≤ recsA files := recsA_ge files
    have hlen2 : recsA files + (payloadAux 0 files).length = (stageBytes files).length :=
      (stageBytes_length files).symm
    have hlen3 : D.length = pre.length + ((stageBytes files).length + suffix.length) := by
      rw [hD]
      simp
    have hnm := packRecordsAux_length_ge files false 0
    have : files.length ≤ (packRecords files).length := hnm
    omega
  have hparse := parse_stageBytes table files pre suffix start (D.length + 1) hpre hgood hm hcs hfl
  rw [← hD] at hparse
  have hwsc : (write_stage_config (entriesOfAux table false 0 1 1 "stg" files)).isSome
      = true := by
    unfold write_stage_config
    exact wsc_aux_isSome files table false 0 1 1 "stg" none
      (fun f hf => by
        have := (hgood f hf).1
        simp only [List.mem_cons, List.mem_singleton] at this
        tauto)
  obtain ⟨cfg, hcfg⟩ := Option.isSome_iff_exists.mp hwsc
  have hshift : payloadAux (start + 2048) files = payloadAux 0 files := by
    obtain ⟨j, hj⟩ : ∃ j, start = 2048 * j := ⟨start / 2048, by omega⟩
    have := payloadAux_shift files (j + 1) 0
    rw [show 2048 * (j + 1) + 0 = start + 2048 by omega] at this
    simpa using this
  have hdropP : D.drop (start + 2048) = payloadAux (start + 2048) files ++ suffix := by
    have h4 := stage_drop4 files pre suffix start hpre
    rw [← hD] at h4
    have h8 : D.drop (start + 4 + 8 * (packRecords files).length)
        = zeros (recsA files - (4 + 8 * (packRecords files).length))
          ++ (payloadAux 0 files ++ suffix) :=
      drop_shift D (start + 4) (8 * (packRecords files).length) _ _ h4
        (recordsBytes_length _)
    have h9 := drop_shift D (start + 4 + 8 * (packRecords files).length)
      (recsA files - (4 + 8 * (packRecords files).length)) _ _ h8 (zeros_length _)
    have hr2048 := recsA_eq_2048 files hm
    have hge := recsA_ge files
    rw [show start + 4 + 8 * (packRecords files).length
        + (recsA files - (4 + 8 * (packRecords files).length)) = start + 2048 by omega] at h9
    rw [h9, hshift]
  have hextract := extract_packed files table false 0 1 1 "stg" D (start + 2048) suffix
    hdropP (fun _ => by omega) (fun h => nomatch h) (Or.inl rfl) hgood
  unfold unpack_stage
  simp only [reader_pos_mk]
  rw [e16a]
  simp only []
  rw [e16b]
  simp only [reader_data_mk]
  rw [show start + 2 + 2 = start + 4 from rfl] at hparse
  rw [hparse]
  simp only []
  rw [hcfg]
  simp only [BufReader.seek, reader_data_mk]
  rw [show start + 1 * 2048 = start + 2048 by omega]
  rw [hextract]
  refine ⟨cfg, ?_⟩
  simp only [Option.some.injEq, UnpackedStage.mk.injEq, hshift, eq_self_iff_true,
    true_and, and_true]
  decide

/-! ## Safety of the cache-size differencing -/

theorem entriesOfAux_ne_nil (table : String → Option String) (inC : Bool)
    (cs mdl tex : Nat) (dn : String) (g : StFile) (grest : List StFile) :
    entriesOfAux table inC cs mdl tex dn (g :: grest) ≠ [] := by
  by_cases hC2 : (inC || (g.sect == 'c')) = true
  · by_cases hnr : nextIsC grest = true
    · rw [entriesOfAux_cons_mid table inC cs mdl tex dn g grest hC2 hnr]
      simp
    · rw [entriesOfAux_cons_end table inC cs mdl tex dn g grest hC2 (by simpa using hnr)]
      simp
  · rw [entriesOfAux_cons_plain table inC cs mdl tex dn g grest (by simpa using hC2)]
    simp

theorem getLast?_cons_ne_nil {α : Type} (a : α) (l : List α) (h : l ≠ []) :
    (a :: l).getLast? = l.getLast? := by
  cases l with
  | nil => exact absurd rfl h
  | cons b t => exact List.getLast?_cons_cons

/-- On the entries mirrored from a packed stage, an entry in the Cache section
that is not a run trailer is never the last entry of the list. -/
theorem entriesOfAux_last_cache (files : List StFile) : ∀ (table : String → Option String)
    (inC : Bool) (cs mdl tex : Nat) (dn : String) (e : String × Char × Nat),
    (inC = true → nextIsC files = true) →
    (entriesOfAux table inC cs mdl tex dn files).getLast? = some e →
    e.2.1 = 'c' → e.1 = "cache_end" := by
  induction files with
  | nil =>
    intro table inC cs mdl tex dn e hin hlast
    simp [entriesOfAux] at hlast
  | cons f rest ih =>
    intro table inC cs mdl tex dn e hin hlast hc
    by_cases hC2 : (inC || (f.sect == 'c')) = true
    · by_cases hnr : nextIsC rest = true
      · obtain ⟨g, grest, rfl⟩ : ∃ g grest, rest = g :: grest := by
          cases rest with
          | nil => simp [nextIsC] at hnr
          | cons g grest => exact ⟨g, grest, rfl⟩
        rw [entriesOfAux_cons_mid table inC cs mdl tex dn f _ hC2 hnr] at hlast
        rw [getLast?_cons_ne_nil _ _ (entriesOfAux_ne_nil _ _ _ _ _ _ g grest)] at hlast
        exact ih table true (cs + f.size) _ _ _ e (fun _ => hnr) hlast hc
      · have hnrf : nextIsC rest = false := by simpa using hnr
        rw [entriesOfAux_cons_end table inC cs mdl tex dn f rest hC2 hnrf] at hlast
        cases rest with
        | nil =>
          simp [entriesOfAux] at hlast
          rw [← hlast]
        | cons g grest =>
          rw [getLast?_cons_ne_nil _ _ (by simp), getLast?_cons_ne_nil _ _
            (entriesOfAux_ne_nil _ _ _ _ _ _ g grest)] at hlast
          exact ih table false (cs + f.size) _ _ _ e (fun h => nomatch h) hlast hc
    · have hC2f : (inC || (f.sect == 'c')) = false := by simpa using hC2
      rw [entriesOfAux_cons_plain table inC cs mdl tex dn f rest hC2f] at hlast
      cases rest with
      | nil =>
        simp [entriesOfAux] at hlast
        rw [← hlast] at hc
        exfalso
        have hsne : f.sect ≠ 'c' := by
          cases hI : inC
          · rw [hI] at hC2f; simpa using hC2f
          · rw [hI] at hC2f; simp at hC2f
        exact hsne hc
      | cons g grest =>
        rw [getLast?_cons_ne_nil _ _ (entriesOfAux_ne_nil _ _ _ _ _ _ g grest)] at hlast
        exact ih table false cs _ _ _ e (fun h => nomatch h) hlast hc

/-- The extraction loop never hits the out-of-range next-index lookup on the
entries mirrored from a packed stage, whatever the reader holds: every Cache
entry is followed either by the next run member or by the run trailer. -/
theorem extract_total (files : List StFile) : ∀ (table : String → Option String)
    (inC : Bool) (cs mdl tex : Nat) (dn : String) (b : BufReader),
    (inC = true → nextIsC files = true) →
    extractFiles (entriesOfAux table inC cs mdl tex dn files) b ≠ none := by
  induction files with
  | nil =>
    intro table inC cs mdl tex dn b hin
    simp [entriesOfAux, extractFiles]
  | cons f rest ih =>
    intro table inC cs mdl tex dn b hin
    by_cases hC2 : (inC || (f.sect == 'c')) = true
    · have hsc : f.sect = 'c' := by
        cases hI : inC
        · rw [hI] at hC2; simpa using hC2
        · have := hin hI; simpa [nextIsC] using this
      by_cases hnr : nextIsC rest = true
      · obtain ⟨g, grest, rfl⟩ : ∃ g grest, rest = g :: grest := by
          cases rest with
          | nil => simp [nextIsC] at hnr
          | cons g grest => exact ⟨g, grest, rfl⟩
        rw [entriesOfAux_cons_mid table inC cs mdl tex dn f _ hC2 hnr, hsc]
        obtain ⟨tl, htl⟩ := entriesOfAux_cons_inC table (cs + f.size) (mdlOf mdl f)
          (texOf tex f) (dnOf dn f) g grest
        rw [htl]
        by_cases hne : nmOf table mdl tex (dnOf dn f) f = "cache_end"
        · rw [hne, extractFiles_cons_skip]
          rw [← htl]
          exact ih table true (cs + f.size) _ _ _ _ (fun _ => hnr)
        · rw [extractFiles_cons_cache _ cs _ g.sect (cs + f.size) tl b hne]
          rw [Ne, Option.map_eq_none']
          rw [← htl]
          exact ih table true (cs + f.size) _ _ _ _ (fun _ => hnr)
      · have hnrf : nextIsC rest = false := by simpa using hnr
        rw [entriesOfAux_cons_end table inC cs mdl tex dn f rest hC2 hnrf, hsc]
        have hskip : ∀ (b2 : BufReader),
            extractFiles (("cache_end", 'c', cs + f.size)
              :: entriesOfAux table false (cs + f.size) (mdlOf mdl f) (texOf tex f)
                (dnOf dn f) rest) b2 ≠ none := by
          intro b2
          rw [extractFiles_cons_skip]
          exact ih table false (cs + f.size) _ _ _ _ (fun h => nomatch h)
        by_cases hne : nmOf table mdl tex (dnOf dn f) f = "cache_end"
        · rw [hne, extractFiles_cons_skip]
          exact hskip _
        · rw [extractFiles_cons_cache _ cs _ 'c' (cs + f.size) _ b hne]
          rw [Ne, Option.map_eq_none']
          exact hskip _
    · have hC2f : (inC || (f.sect == 'c')) = false := by simpa using hC2
      have hsne : f.sect ≠ 'c' := by
        cases hI : inC
        · rw [hI] at hC2f; simpa using hC2f
        · rw [hI] at hC2f; simp at hC2f
      rw [entriesOfAux_cons_plain table inC cs mdl tex dn f rest hC2f]
      by_cases hne : nmOf table mdl tex (dnOf dn f) f = "cache_end"
      · rw [hne, extractFiles_cons_skip]
        exact ih table false cs _ _ _ _ (fun h => nomatch h)
      · rw [extractFiles_cons_plain _ f.sect f.size _ b hne hsne]
        rw [Ne, Option.map_eq_none']
        exact ih table false cs _ _ _ _ (fun h => nomatch h)

/-! ## The round-trip claims -/

/-- A single-file stage whose asset has the quirky `bin` extension, classified
Resident by its config. -/
def binFile : StFile := ⟨"a", "bin", 'r', [7]⟩

/-- A dictionary resolving exactly the `bin` asset's record key. -/
def tableBin : String → Option String :=
  fun k => if k = hexKey (strcode "a") 98 then some "a.bin" else none

/-- A single-file stage with an ordinary extension in the Resident section. -/
def datFile : StFile := ⟨"a", "dat", 'r', [1, 2, 3]⟩

/-- A dictionary resolving exactly the `dat` asset's record key. -/
def tableDat : String → Option String :=
  fun k => if k = hexKey (strcode "a") 100 then some "a.dat" else none

/-- A two-file cache run of `dar` assets (resolved synthetically, so the
dictionary is empty). -/
def darC1 : StFile := ⟨"x", "dar", 'c', [1, 2]⟩

/-- Second member of the cache run. -/
def darC2 : StFile := ⟨"y", "dar", 'c', [3]⟩

/-- The empty dictionary. -/
def tableNil : String → Option String := fun _ => none

/-- C1 (amended): for a stage of supported files (section tag among `cnrs`,
extension neither the quirky `bin` nor a Sound-section `dar`, a dictionary hit
for named entries, lowercase extension tag), with at most 254 records, total
size within the `u32`/`i16` fields, packed at a sector-aligned position,
unpacking the packed bytes succeeds and reproduces every asset's exact byte
content and its section classification, in order. -/
theorem c1_pack_unpack_roundtrip (table : String → Option String) (files : List StFile)
    (d : List Nat) (p : Nat)
    (hdp : d.length ≤ p) (hp : p % 2048 = 0)
    (hgood : ∀ f ∈ files, GoodFile table f)
    (hm : (packRecords files).length ≤ 254)
    (hcs : sizeSum files < 4294967296)
    (htot : stageSize files / 2048 < 32768) :
    ∃ u, unpack_stage table ⟨((pack_stage files ⟨d, p⟩).1).data, p⟩ = some u
      ∧ u.outs.map (fun o => o.2.2) = files.map StFile.content
      ∧ u.outs.map (fun o => o.2.1) = files.map StFile.sect := by
  have hps := pack_stage_spec files d p hdp hp
  have hdata : ((pack_stage files ⟨d, p⟩).1).data
      = (d ++ zeros (p - d.length)) ++ (stageBytes files ++ []) := by
    rw [hps]
    simp [List.append_assoc]
  obtain ⟨cfg, hun⟩ := unpack_stageBytes table files (d ++ zeros (p - d.length)) [] p
    (by simp only [List.length_append, zeros_length]; omega) hp hgood hm hcs
  refine ⟨⟨entriesOfAux table false 0 1 1 "stg" files, false, cfg,
    outsOfAux table 1 1 "stg" files,
    ⟨(d ++ zeros (p - d.length)) ++ (stageBytes files ++ []),
     p + 2048 + (payloadAux 0 files).length⟩⟩, ?_, ?_, ?_⟩
  · rw [hdata]
    exact hun
  · exact outsOfAux_contents table files 1 1 "stg"
  · exact outsOfAux_sects table files 1 1 "stg"

/-- Unfolding of `unpack_stage` on a packed stage whose sub-header says one
header sector, given the outcomes of the record loop, the config regeneration
and the extraction loop. -/
theorem unpack_stage_eval (table : String → Option String) (files : List StFile)
    (pre suffix : List Nat) (start q : Nat) (E : List (String × Char × Nat))
    (cfg : List String) (outs : List (String × Char × List Nat))
    (rdr : BufReader) (D : List Nat)
    (hDeq : D = pre ++ (stageBytes files ++ suffix))
    (hpre : pre.length = start)
    (hdr1 : hdrVal files = 1)
    (hparse : parseEntries table (D.length + 1) 1 1 "stg" ⟨D, start + 4⟩
        = some (E, ⟨D, q⟩))
    (hcfg : write_stage_config E = some cfg)
    (hextr : extractFiles E ⟨D, start + 2048⟩ = some (outs, rdr)) :
    unpack_stage table ⟨D, start⟩ = some ⟨E, false, cfg, outs, rdr⟩ := by
  have h0 : D.drop start
      = u16le 1
        ++ (u16le (stageSize files / 2048)
        ++ (recordsBytes (packRecords files)
        ++ (zeros (recsA files - (4 + 8 * (packRecords files).length))
        ++ (payloadAux 0 files ++ suffix)))) := by
    rw [hDeq, ← hdr1]
    exact stage_drop0 files pre suffix start hpre
  have e16a : BufReader.readU16 ⟨D, start⟩ = some (1, ⟨D, start + 2⟩) := by
    have := readU16_at D start 1 _ h0
    simpa using this
  have h2 := drop_shift D start 2 _ _ h0 (u16le_length _)
  have e16b : BufReader.readU16 ⟨D, start + 2⟩
      = some (stageSize files / 2048 % 65536, ⟨D, start + 2 + 2⟩) :=
    readU16_at D (start + 2) _ _ h2
  rw [show start + 4 = start + 2 + 2 from rfl] at hparse
  unfold unpack_stage
  simp only [reader_pos_mk]
  rw [e16a]
  simp only []
  rw [e16b]
  simp only [reader_data_mk]
  rw [hparse]
  simp only []
  rw [hcfg]
  simp only [BufReader.seek, reader_data_mk]
  rw [show start + 1 * 2048 = start + 2048 by omega]
  rw [hextr]
  simp only [Option.some.injEq, UnpackedStage.mk.injEq, eq_self_iff_true, true_and,
    and_true]
  decide

/-- C1 counterexample: a Resident-classified `bin` asset round-trips with
section `'s'` (pack writes the Sound tag for every `bin` extension), so the
section classification of the original claim is not reproduced even though the
byte content is. -/
theorem c1_counterexample_bin_breaks_section :
    (unpack_stage tableBin ⟨((pack_stage [binFile] ⟨[], 0⟩).1).data, 0⟩).map
        (fun u => u.outs.map (fun o => o.2.1)) = some ['s']
    ∧ (unpack_stage tableBin ⟨((pack_stage [binFile] ⟨[], 0⟩).1).data, 0⟩).map
        (fun u => u.outs.map (fun o => o.2.2)) = some [[7]]
    ∧ binFile.sect = 'r' := by
  set D := ([] ++ zeros 0) ++ (stageBytes [binFile] ++ []) with hD
  have hdata : ((pack_stage [binFile] ⟨[], 0⟩).1).data = D := by
    rw [pack_stage_spec [binFile] [] 0 (by decide) (by decide), hD]
    simp [List.append_assoc]
  have hd4 := stage_drop4 [binFile] ([] ++ zeros 0) [] 0 (by decide)
  rw [← hD] at hd4
  have hrec : packRecords [binFile]
      = [{ name := 97, mode := 115, ext := 98, value := 1 }] := by decide
  have hd4' : D.drop 4
      = recordBytes { name := 97, mode := 115, ext := 98, value := 1 }
        ++ (zeros 2036 ++ (payloadAux 0 [binFile] ++ [])) := by
    rw [show (0 : Nat) + 4 = 4 from rfl] at hd4
    rw [hrec, show recsA [binFile] = 2048 from by decide] at hd4
    simpa [recordsBytes] using hd4
  have hd12 : D.drop 12 = zeros 2036 ++ (payloadAux 0 [binFile] ++ []) := by
    have := drop_shift D 4 8 _ _ hd4' (recordBytes_length _)
    simpa using this
  have hpay : payloadAux 0 [binFile] = [7] ++ (zeros 2047 ++ []) := by
    rw [payloadAux_cons_plain 0 binFile [] (by decide)]
    rw [show alignUp 2048 (0 + binFile.size) - (0 + binFile.size) = 2047 by decide]
    rw [show payloadAux (alignUp 2048 (0 + binFile.size)) [] = [] from rfl]
    rfl
  have hlen : 1 ≤ D.length := by
    have h1 : (stageBytes [binFile]).length = stageSize [binFile] := stageBytes_length _
    have h2 : recsA [binFile] + (payloadAux 0 [binFile]).length = stageSize [binFile] := rfl
    have h3 : recsA [binFile] = 2048 := by decide
    have h4 : D.length = ([] ++ zeros 0 : List Nat).length + ((stageBytes [binFile]).length
        + ([] : List Nat).length) := by
      rw [hD]
      simp
    omega
  obtain ⟨n, hn⟩ : ∃ n, D.length = n + 1 := ⟨D.length - 1, by omega⟩
  have hterm : parseEntries tableBin (n + 1) 1 1 "stg" ⟨D, 4 + 8⟩
      = some ([], ⟨D, 4 + 8 + 8⟩) :=
    parse_term tableBin n 1 1 "stg" D 12 2036 (payloadAux 0 [binFile] ++ [])
      hd12 (by norm_num) (by omega)
  have hparse : parseEntries tableBin (D.length + 1) 1 1 "stg" ⟨D, 0 + 4⟩
      = some ([("a.bin", 's', 1)], ⟨D, 20⟩) := by
    rw [hn]
    rw [show (0 : Nat) + 4 = 4 from rfl]
    rw [parse_step tableBin (n + 1) 1 1 "stg" D 4
      { name := 97, mode := 115, ext := 98, value := 1 } _ hd4'
      (by norm_num) (by norm_num) (by norm_num) (by norm_num) (by norm_num)]
    simp only []
    rw [show tableBin (hexKey 97 98) = some "a.bin" from by decide]
    simp [hterm, show Char.ofNat 115 = 's' from by decide]
  have hcfg : write_stage_config [("a.bin", 's', 1)] = some [".nocache", "a.bin"] := by
    decide
  have hpay2048 : D.drop 2048 = [7] ++ (zeros 2047 ++ ([] : List Nat)) := by
    have := drop_shift D 12 2036 _ _ hd12 (zeros_length _)
    rw [show (12 : Nat) + 2036 = 2048 from by norm_num] at this
    rw [this, hpay]
    simp
  have hread : BufReader.read ⟨D, 2048⟩ 1 = ([7], ⟨D, 2048 + 1⟩) := by
    have := read_exact D 2048 [7] (zeros 2047 ++ []) hpay2048
    simpa using this
  have hdrop2049 : D.drop 2049 = zeros (alignUp 2048 2049 - 2049) ++ [] := by
    have h1 : D.drop (2048 + 1) = zeros 2047 ++ [] :=
      drop_shift D 2048 1 [7] _ hpay2048 rfl
    rw [show alignUp 2048 2049 - 2049 = 2047 by decide]
    simpa using h1
  have halign : BufReader.align ⟨D, 2049⟩ 2048 = ⟨D, 4096⟩ := by
    have := reader_align_exact D 2049 [] hdrop2049
    rw [show alignUp 2048 2049 = 4096 by decide] at this
    exact this
  have hextr : extractFiles [("a.bin", 's', 1)] ⟨D, 0 + 2048⟩
      = some ([("a.bin", 's', [7])], ⟨D, 4096⟩) := by
    rw [show (0 : Nat) + 2048 = 2048 from rfl]
    rw [extractFiles_cons_plain "a.bin" 's' 1 [] ⟨D, 2048⟩ (by decide) (by decide)]
    rw [hread]
    simp only []
    rw [show (2048 : Nat) + 1 = 2049 from rfl]
    rw [halign]
    rfl
  have hun := unpack_stage_eval tableBin [binFile] ([] ++ zeros 0) [] 0 20
    [("a.bin", 's', 1)] [".nocache", "a.bin"] [("a.bin", 's', [7])] ⟨D, 4096⟩ D hD
    (by decide) (by decide) hparse hcfg hextr
  refine ⟨?_, ?_, rfl⟩
  · rw [hdata, hun]
    rfl
  · rw [hdata, hun]
    rfl


/-- C1 witness: the round trip at a concrete one-file Resident stage. -/
theorem c1_pack_unpack_roundtrip_witness :
    ∃ u, unpack_stage tableDat ⟨((pack_stage [datFile] ⟨[], 0⟩).1).data, 0⟩ = some u
      ∧ u.outs.map (fun o => o.2.2) = [datFile].map StFile.content
      ∧ u.outs.map (fun o => o.2.1) = [datFile].map StFile.sect :=
  c1_pack_unpack_roundtrip tableDat [datFile] [] 0 (by decide) (by decide)
    (by decide) (by decide) (by decide)
    (by
      have h1 : (payloadAux 0 [datFile]).length = 2048 := by
        rw [payloadAux_cons_plain 0 datFile [] (by decide)]
        simp only [List.length_append, zeros_length, payloadAux, List.length_nil]
        decide
      have h2 : stageSize [datFile] = recsA [datFile] + (payloadAux 0 [datFile]).length := rfl
      have h3 : recsA [datFile] = 2048 := by decide
      omega)

/-- C9: pack emits no terminator record; the record area's byte length
`4 + 8 * records` is 4 mod 8, the sector alignment therefore pads with at
least 4 zero bytes, and the record-reading loop of unpack stops exactly one
8-byte read past the emitted records, on the zero section tag found in that
padding, returning the mirrored entries. -/
theorem c9_terminator_in_padding (table : String → Option String) (files : List StFile)
    (d : List Nat) (p fl : Nat)
    (hdp : d.length ≤ p) (hp : p % 2048 = 0)
    (hgood : ∀ f ∈ files, GoodFile table f)
    (hm : (packRecords files).length ≤ 254)
    (hcs : sizeSum files < 4294967296)
    (hfl : 2 * files.length + 1 ≤ fl) :
    (4 + 8 * (packRecords files).length) % 8 = 4
    ∧ 4 ≤ recsA files - (4 + 8 * (packRecords files).length)
    ∧ parseEntries table fl 1 1 "stg" ⟨((pack_stage files ⟨d, p⟩).1).data, p + 4⟩
        = some (entriesOfAux table false 0 1 1 "stg" files,
            ⟨((pack_stage files ⟨d, p⟩).1).data,
             p + 4 + (8 * (packRecords files).length + 8)⟩) := by
  have hps := pack_stage_spec files d p hdp hp
  have hdata : ((pack_stage files ⟨d, p⟩).1).data
      = (d ++ zeros (p - d.length)) ++ (stageBytes files ++ []) := by
    rw [hps]
    simp [List.append_assoc]
  refine ⟨by omega, ?_, ?_⟩
  · have h1 := recsA_ge files
    have h2 := recsA_mod files
    omega
  · rw [hdata]
    exact parse_stageBytes table files (d ++ zeros (p - d.length)) [] p fl
      (by simp only [List.length_append, zeros_length]; omega) hgood hm hcs hfl

/-- C9 witness: the terminator behaviour at a concrete one-file stage. -/
theorem c9_terminator_in_padding_witness :
    (4 + 8 * (packRecords [datFile]).length) % 8 = 4
    ∧ 4 ≤ recsA [datFile] - (4 + 8 * (packRecords [datFile]).length)
    ∧ parseEntries tableDat 3 1 1 "stg" ⟨((pack_stage [datFile] ⟨[], 0⟩).1).data, 0 + 4⟩
        = some (entriesOfAux tableDat false 0 1 1 "stg" [datFile],
            ⟨((pack_stage [datFile] ⟨[], 0⟩).1).data,
             0 + 4 + (8 * (packRecords [datFile]).length + 8)⟩) :=
  c9_terminator_in_padding tableDat [datFile] [] 0 3 (by decide) (by decide)
    (by decide) (by decide) (by decide) (by decide)

/-- C10: on the entries the record loop parses from a packed stage, an entry
in the Cache section that is not a run trailer is never the last entry (pack
closes every cache run with a trailer record), so the extraction loop's
next-index size lookup is in bounds for every reader state: it never reaches
its out-of-range failure case. -/
theorem c10_cache_next_in_bounds (table : String → Option String)
    (files : List StFile) (d : List Nat) (p fl : Nat)
    (hdp : d.length ≤ p) (hp : p % 2048 = 0)
    (hgood : ∀ f ∈ files, GoodFile table f)
    (hm : (packRecords files).length ≤ 254)
    (hcs : sizeSum files < 4294967296)
    (hfl : 2 * files.length + 1 ≤ fl) :
    ∀ E b2, parseEntries table fl 1 1 "stg" ⟨((pack_stage files ⟨d, p⟩).1).data, p + 4⟩
        = some (E, b2) →
      (∀ e, E.getLast? = some e → e.2.1 = 'c' → e.1 = "cache_end")
      ∧ ∀ b, extractFiles E b ≠ none := by
  intro E b2 hparse
  have hps := pack_stage_spec files d p hdp hp
  have hdata : ((pack_stage files ⟨d, p⟩).1).data
      = (d ++ zeros (p - d.length)) ++ (stageBytes files ++ []) := by
    rw [hps]
    simp [List.append_assoc]
  rw [hdata] at hparse
  rw [parse_stageBytes table files (d ++ zeros (p - d.length)) [] p fl
    (by simp only [List.length_append, zeros_length]; omega) hgood hm hcs hfl] at hparse
  have hE : entriesOfAux table false 0 1 1 "stg" files = E := by
    injection hparse with h1
    exact congrArg Prod.fst h1
  rw [← hE]
  exact ⟨fun e hl hc =>
      entriesOfAux_last_cache files table false 0 1 1 "stg" e (fun h => nomatch h) hl hc,
    fun b => extract_total files table false 0 1 1 "stg" b (fun h => nomatch h)⟩

/-- C10 witness: the safety property at a concrete two-file cache run. -/
theorem c10_cache_next_in_bounds_witness :
    (∀ e, (entriesOfAux tableNil false 0 1 1 "stg" [darC1, darC2]).getLast? = some e
        → e.2.1 = 'c' → e.1 = "cache_end")
    ∧ ∀ b, extractFiles (entriesOfAux tableNil false 0 1 1 "stg" [darC1, darC2]) b ≠ none := by
  have hdata : ((pack_stage [darC1, darC2] ⟨[], 0⟩).1).data
      = ([] ++ zeros 0) ++ (stageBytes [darC1, darC2] ++ []) := by
    rw [pack_stage_spec [darC1, darC2] [] 0 (by decide) (by decide)]
    simp [List.append_assoc]
  refine c10_cache_next_in_bounds tableNil [darC1, darC2] [] 0 5 (by decide) (by decide)
    (by decide) (by decide) (by decide) (by decide)
    (entriesOfAux tableNil false 0 1 1 "stg" [darC1, darC2])
    ⟨([] ++ zeros 0) ++ (stageBytes [darC1, darC2] ++ []),
     0 + 4 + (8 * (packRecords [darC1, darC2]).length + 8)⟩ ?_
  rw [hdata]
  exact parse_stageBytes tableNil [darC1, darC2] ([] ++ zeros 0) [] 0 5
    (by decide) (by decide) (by decide) (by decide) (by decide)

end Restage
